import Mathlib

set_option maxHeartbeats 1000000

/-!
# Verification of the segmentation and identity-rewriting engine

Shallow embedding of `src/split_log_for_tests.py`: the segmentation pipeline
(`find_head`, `is_compaction_marker`, `extract_all_segments`) and the
identity rewriter (`rewrite_uuids`), together with the record store's
derived indices (`by_uuid`, `uuid_to_index` built inside
`extract_all_segments`).

Modelling conventions:
* A JSON record is modelled as a `Record` structure carrying the fields the
  engine consumes (`uuid`, `parentUuid`, `type`, `subtype`,
  `isCompactSummary`, `sessionId`); all remaining payload is the opaque
  `extra` field, passed through untouched except by explicit field updates
  (mirroring `record.copy()` followed by key assignments).
* Identifier fields are `Option String`; a JSON `null` and an absent key are
  both `none`.  Python truthiness of an identifier (`while current:`,
  `if old_uuid:`, `if old_parent ...`) is `truthy`: present and non-empty.
* Python dict semantics (`by_uuid[u] = record` overwrites) are modelled by
  last-occurrence lookup functions (`byUuid`, `lastIdx`).
* The two `while` loops of `extract_all_segments` are modelled with an
  explicit fuel parameter; `none` means the fuel was exhausted before the
  loop exited.  Both loops are monotone in fuel, so "the Python code
  terminates and returns `v`" corresponds to "for some fuel the model
  returns `some v`".
* Fresh `uuid.uuid4()` values are modelled by a caller-supplied generator
  `gen : Nat → String` handing out the identifier for each position.
-/

/-- A transcript record (one JSONL line), as consumed by the engine. -/
structure Record where
  uuid : Option String
  parentUuid : Option String
  type : Option String
  subtype : Option String
  isCompactSummary : Bool
  sessionId : Option String
  extra : List (String × String)
deriving DecidableEq, Repr

/-- Python truthiness of an identifier value: present and non-empty. -/
def truthy : Option String → Bool
  | none => false
  | some s => !(s == "")

/-- The `by_uuid` dict built by `load_records`: later lines overwrite
earlier ones, so lookup returns the last record carrying the identifier. -/
def byUuid (u : String) : List Record → Option Record
  | [] => none
  | r :: rest =>
    match byUuid u rest with
    | some r' => some r'
    | none => if r.uuid = some u then some r else none

/-- Index of the last record carrying identifier `u` (the `uuid_to_index`
dict built at the top of `extract_all_segments`). -/
def lastIdx (u : String) : List Record → Option Nat
  | [] => none
  | r :: rest =>
    match lastIdx u rest with
    | some j => some (j + 1)
    | none => if r.uuid = some u then some 0 else none

/-- `uuid_to_index` as a lookup function on the record list. -/
def uuidToIndex (records : List Record) (u : String) : Option Nat :=
  lastIdx u records

/-- A live conversational turn: `type` is `user` or `assistant` and the
record is not a compact summary (the two `continue` filters of
`find_head`). -/
def isLiveTurn (r : Record) : Bool :=
  (decide (r.type = some "user") || decide (r.type = some "assistant")) && !r.isCompactSummary

/-- `find_head`: scan records in reverse physical order and return
`record.get('uuid')` of the first live turn (which may itself be `none`). -/
def find_head (records : List Record) : Option String :=
  match records.reverse.find? isLiveTurn with
  | none => none
  | some r => r.uuid

/-- `is_compaction_marker`: compact summary, or a system record whose
subtype is `compact_boundary`. -/
def is_compaction_marker (r : Record) : Bool :=
  r.isCompactSummary ||
    (decide (r.type = some "system") && decide (r.subtype = some "compact_boundary"))

/-- The previous-chain head computed when the walk stops at a compaction
marker: look the marker up in `uuid_to_index`; if it has a positive index,
take `records[idx - 1].get('uuid')` (which may be `none`). -/
def prevHeadOf (idxOf : String → Option Nat) (records : List Record) (record : Record) :
    Option String :=
  match record.uuid with
  | none => none
  | some u =>
    match idxOf u with
    | none => none
    | some idx =>
      if 0 < idx then
        match records.get? (idx - 1) with
        | none => none
        | some prev => prev.uuid
      else none

/-- The inner `while current:` loop of `extract_all_segments`: follow
`parentUuid` links, accumulating the chain newest-first, until the current
identifier is falsy, missing from `by_uuid`, or resolves to a compaction
marker.  Returns the accumulated chain and `prev_chain_head` (only set in
the marker case).  `none` = out of fuel. -/
def chainWalk (byU : String → Option Record) (idxOf : String → Option Nat)
    (records : List Record) : Nat → Option String → List Record → Option (List Record × Option String)
  | 0, cur, chain => if truthy cur then none else some (chain, none)
  | _ + 1, none, chain => some (chain, none)
  | fuel + 1, some c, chain =>
    if c = "" then some (chain, none)
    else
      match byU c with
      | none => some (chain, none)
      | some record =>
        if is_compaction_marker record then
          some (chain, prevHeadOf idxOf records record)
        else
          chainWalk byU idxOf records fuel record.parentUuid (chain ++ [record])

/-- The outer `while current_head:` loop of `extract_all_segments`: walk a
chain, reverse it to chronological order, append it (when non-empty) and
continue from `prev_chain_head`.  Returns segments in discovery order
(newest conversation first). -/
def segLoop (byU : String → Option Record) (idxOf : String → Option Nat)
    (records : List Record) : Nat → Option String → Option (List (List Record))
  | 0, h => if truthy h then none else some []
  | fuel + 1, h =>
    if truthy h then
      (chainWalk byU idxOf records (fuel + 1) h []).bind fun q =>
        (segLoop byU idxOf records fuel q.2).map fun rest =>
          if q.1.isEmpty then rest else q.1.reverse :: rest
    else some []

/-- `extract_all_segments(head_uuid, by_uuid, records)`: run the segment
loop from the head and reverse the result so the oldest segment is first.
`uuid_to_index` is built from `records` exactly as in the source. -/
def extract_all_segments (fuel : Nat) (head_uuid : String) (byU : String → Option Record)
    (records : List Record) : Option (List (List Record)) :=
  (segLoop byU (uuidToIndex records) records fuel (some head_uuid)).map List.reverse

/-- The `old_to_new[old_uuid] = new_uuid` insertion of `rewrite_uuids`
(only truthy identifiers are inserted); the dict is kept most-recent-first
so lookup by `find?` returns the latest binding. -/
def insEntry (gen : Nat → String) (i : Nat) (r : Record) (m : List (String × String)) :
    List (String × String) :=
  match r.uuid with
  | none => m
  | some u => if u = "" then m else (u, gen i) :: m

/-- The parent rewrite of `rewrite_uuids`: `old_to_new[old_parent]` when the
old parent is truthy and present, otherwise `None`. -/
def lookupParent (parent : Option String) (m : List (String × String)) : Option String :=
  match parent with
  | none => none
  | some p =>
    if p = "" then none
    else
      match m.find? (fun e => decide (e.1 = p)) with
      | none => none
      | some e => some e.2

/-- The loop body of `rewrite_uuids`: `m` is the `old_to_new` dict, `i` the
index used to draw the fresh identifier from `gen`. -/
def rewriteAux (gen : Nat → String) (sid : String) :
    List Record → Nat → List (String × String) → List Record
  | [], _, _ => []
  | r :: rest, i, m =>
    let m' := insEntry gen i r m
    { r with uuid := some (gen i), sessionId := some sid,
             parentUuid := lookupParent r.parentUuid m' } ::
      rewriteAux gen sid rest (i + 1) m'

/-- `rewrite_uuids(segment, new_session_id)` with the fresh-identifier
supply made explicit. -/
def rewrite_uuids (segment : List Record) (new_session_id : String) (gen : Nat → String) :
    List Record :=
  rewriteAux gen new_session_id segment 0 []

/-- `split_log` without its file I/O: resolve the head (empty result if the
head is falsy), extract segments, and pair each with its fresh session
identifier and rewritten records.  `sidGen i` is the session identifier for
segment `i`; `uuidGen i` the per-segment record-identifier supply. -/
def split_log (fuel : Nat) (records : List Record) (sidGen : Nat → String)
    (uuidGen : Nat → Nat → String) : Option (List (String × List Record)) :=
  match find_head records with
  | none => some []
  | some h =>
    if h = "" then some []
    else
      (extract_all_segments fuel h (fun u => byUuid u records) records).map (fun segs =>
        segs.enum.map (fun p => (sidGen p.1, rewrite_uuids p.2 (sidGen p.1) (uuidGen p.1))))

/-- The set of live-chain records, following the spec's words: the records
on the head's ancestry via parent links, continued across each compaction
boundary via the record physically preceding the marker.  This is the
spec-side reference definition for the completeness claim; it is compared
against the union of the segments the code emits. -/
def liveChainRecords (byU : String → Option Record) (idxOf : String → Option Nat)
    (records : List Record) : Nat → Option String → Option (List Record)
  | 0, cur => if truthy cur then none else some []
  | _ + 1, none => some []
  | fuel + 1, some c =>
    if c = "" then some []
    else
      match byU c with
      | none => some []
      | some r =>
        if is_compaction_marker r then
          liveChainRecords byU idxOf records fuel (prevHeadOf idxOf records r)
        else
          match liveChainRecords byU idxOf records fuel r.parentUuid with
          | none => none
          | some rest => some (r :: rest)

/-- The `old_to_new` dict as it stands after the first `t` records of
`seg` have been processed by `rewrite_uuids` (latest insertion first). -/
def mapUpTo (gen : Nat → String) (seg : List Record) : Nat → List (String × String)
  | 0 => []
  | t + 1 =>
    match seg.get? t with
    | none => mapUpTo gen seg t
    | some r => insEntry gen t r (mapUpTo gen seg t)

/-- Closed form of the parent reference assigned to record `k` of a
segment by `rewrite_uuids`. -/
def parVal (gen : Nat → String) (seg : List Record) (k : Nat) : Option String :=
  match seg.get? k with
  | none => none
  | some r => lookupParent r.parentUuid (mapUpTo gen seg (k + 1))

/-! ## Basic lemmas about the chain walk -/

section WalkLemmas

variable (byU : String → Option Record) (idxOf : String → Option Nat) (records : List Record)

/-- The accumulator of the chain walk is a pure prefix: the walk's result is
the result from an empty accumulator with the accumulator prepended. -/
theorem chainWalk_acc : ∀ (F : Nat) (cur : Option String) (acc : List Record),
    chainWalk byU idxOf records F cur acc =
      (chainWalk byU idxOf records F cur []).map (fun q => (acc ++ q.1, q.2)) := by
  intro F
  induction F with
  | zero =>
    intro cur acc
    by_cases h : truthy cur = true <;> simp [chainWalk, h]
  | succ F ih =>
    intro cur acc
    match cur with
    | none => simp [chainWalk]
    | some c =>
      by_cases hc : c = ""
      · simp [chainWalk, hc]
      · cases hb : byU c with
        | none => simp [chainWalk, hc, hb]
        | some record =>
          by_cases hm : is_compaction_marker record = true
          · simp [chainWalk, hc, hb, hm]
          · simp only [chainWalk, hc, hb, hm, if_false, ite_false]
            rw [ih record.parentUuid (acc ++ [record]), ih record.parentUuid ([] ++ [record])]
            cases chainWalk byU idxOf records F record.parentUuid [] <;> simp

/-- Fuel monotonicity of the chain walk (one step). -/
theorem chainWalk_mono : ∀ (F : Nat) (cur : Option String) (acc : List Record) res,
    chainWalk byU idxOf records F cur acc = some res →
    chainWalk byU idxOf records (F + 1) cur acc = some res := by
  intro F
  induction F with
  | zero =>
    intro cur acc res h
    by_cases ht : truthy cur = true
    · simp [chainWalk, ht] at h
    · simp [chainWalk, ht] at h
      match cur, ht with
      | none, _ => simpa [chainWalk] using h
      | some c, ht =>
        have hc : c = "" := by
          simp [truthy] at ht; exact ht
        simpa [chainWalk, hc] using h
  | succ F ih =>
    intro cur acc res h
    match cur with
    | none => simpa [chainWalk] using h
    | some c =>
      by_cases hc : c = ""
      · simpa [chainWalk, hc] using h
      · cases hb : byU c with
        | none => simp only [chainWalk, hc, hb, ite_false] at h ⊢; exact h
        | some record =>
          by_cases hm : is_compaction_marker record = true
          · simp only [chainWalk, hc, hb, hm, ite_false, ite_true] at h ⊢; exact h
          · simp only [chainWalk, hc, hb, hm, ite_false] at h ⊢
            exact ih record.parentUuid (acc ++ [record]) res h

/-- Fuel monotonicity of the chain walk. -/
theorem chainWalk_mono_le {F F' : Nat} (hle : F ≤ F') {cur : Option String}
    {acc : List Record} {res} (h : chainWalk byU idxOf records F cur acc = some res) :
    chainWalk byU idxOf records F' cur acc = some res := by
  induction hle with
  | refl => exact h
  | step _ ih => exact chainWalk_mono byU idxOf records _ cur acc res ih

/-- Two successful walks from the same start agree. -/
theorem chainWalk_det {F F' : Nat} {cur : Option String} {acc : List Record} {res res'}
    (h : chainWalk byU idxOf records F cur acc = some res)
    (h' : chainWalk byU idxOf records F' cur acc = some res') : res = res' := by
  rcases Nat.le_total F F' with hle | hle
  · have := chainWalk_mono_le byU idxOf records hle h
    rw [this] at h'; exact Option.some.inj h'
  · have := chainWalk_mono_le byU idxOf records hle h'
    rw [this] at h; exact (Option.some.inj h).symm

end WalkLemmas

section WalkStructure

variable (byU : String → Option Record) (idxOf : String → Option Nat) (records : List Record)

/-- Inversion of a successful walk producing a non-empty chain: the first
collected record is the resolution of the starting identifier, it is not a
marker, and the rest of the chain is the walk from its parent. -/
theorem chainWalk_cons_inv {F : Nat} {cur : Option String} {r : Record} {ext : List Record}
    {p : Option String} (h : chainWalk byU idxOf records F cur [] = some (r :: ext, p)) :
    ∃ c F', F = F' + 1 ∧ cur = some c ∧ ¬(c = "") ∧ byU c = some r ∧
      is_compaction_marker r = false ∧
      chainWalk byU idxOf records F' r.parentUuid [] = some (ext, p) := by
  match F, cur with
  | 0, cur =>
    by_cases ht : truthy cur = true <;> simp [chainWalk, ht] at h
  | F' + 1, none => simp [chainWalk] at h
  | F' + 1, some c =>
    by_cases hc : c = ""
    · simp [chainWalk, hc] at h
    · cases hb : byU c with
      | none => simp [chainWalk, hc, hb] at h
      | some record =>
        by_cases hm : is_compaction_marker record = true
        · simp [chainWalk, hc, hb, hm] at h
        · simp only [chainWalk, hc, hb, hm, ite_false] at h
          rw [chainWalk_acc byU idxOf records F' record.parentUuid ([] ++ [record])] at h
          cases hw : chainWalk byU idxOf records F' record.parentUuid [] with
          | none => rw [hw] at h; simp at h
          | some q =>
            obtain ⟨ext0, p0⟩ := q
            rw [hw] at h
            simp at h
            obtain ⟨⟨hr, hext⟩, hp⟩ := h
            refine ⟨c, F', rfl, rfl, hc, ?_, ?_, ?_⟩
            · rw [hb, hr]
            · rw [← hr]; exact Bool.not_eq_true _ ▸ hm
            · rw [hr] at hw; rw [hw, hext, hp]

/-- Every collected record sits at the start of a tail walk: the suffix of
the chain after position `i`, and the final `prev_chain_head`, are exactly
what walking from record `i`'s parent yields. -/
theorem chainWalk_idx : ∀ (i : Nat) (F : Nat) (cur : Option String) (ext : List Record)
    (p : Option String) (r : Record),
    chainWalk byU idxOf records F cur [] = some (ext, p) → ext.get? i = some r →
    chainWalk byU idxOf records F r.parentUuid [] = some (ext.drop (i + 1), p) := by
  intro i
  induction i with
  | zero =>
    intro F cur ext p r h hget
    match ext, hget with
    | r0 :: ext', hget =>
      simp only [List.get?] at hget
      obtain rfl : r0 = r := by exact Option.some.inj hget
      obtain ⟨c, F', rfl, _, _, _, _, hw⟩ := chainWalk_cons_inv byU idxOf records h
      exact chainWalk_mono_le byU idxOf records (Nat.le_succ F') hw
  | succ i ih =>
    intro F cur ext p r h hget
    match ext, hget with
    | r0 :: ext', hget =>
      simp only [List.get?] at hget
      obtain ⟨c, F', rfl, _, _, _, _, hw⟩ := chainWalk_cons_inv byU idxOf records h
      have := ih F' r0.parentUuid ext' p r hw hget
      exact chainWalk_mono_le byU idxOf records (Nat.le_succ F') (by simpa using this)

/-- A successful walk never collects the same record twice. -/
theorem chainWalk_nodup {F : Nat} {cur : Option String} {ext : List Record}
    {p : Option String} (h : chainWalk byU idxOf records F cur [] = some (ext, p)) :
    ext.Nodup := by
  rw [List.nodup_iff_injective_get]
  intro a b hab
  by_contra hne
  have hne' : a.1 ≠ b.1 := fun hv => hne (Fin.ext hv)
  have ha : ext.get? a.1 = some (ext.get a) := List.get?_eq_get a.2
  have hb : ext.get? b.1 = some (ext.get b) := List.get?_eq_get b.2
  rw [hab] at ha
  have ta := chainWalk_idx byU idxOf records a.1 F cur ext p (ext.get b) h ha
  have tb := chainWalk_idx byU idxOf records b.1 F cur ext p (ext.get b) h hb
  have hdrop : ext.drop (a.1 + 1) = ext.drop (b.1 + 1) :=
    (Prod.mk.injEq .. ▸ (chainWalk_det byU idxOf records ta tb)).1
  have hlen : ext.length - (a.1 + 1) = ext.length - (b.1 + 1) := by
    rw [← List.length_drop, ← List.length_drop, hdrop]
  have h1 : a.1 + 1 ≤ ext.length := a.2
  have h2 : b.1 + 1 ≤ ext.length := b.2
  omega

/-- Every collected record resolves from a truthy identifier via `by_uuid`
and is not a compaction marker. -/
theorem chainWalk_mem : ∀ (F : Nat) (cur : Option String) (ext : List Record)
    (p : Option String) (r : Record),
    chainWalk byU idxOf records F cur [] = some (ext, p) → r ∈ ext →
    ∃ c, ¬(c = "") ∧ byU c = some r ∧ is_compaction_marker r = false := by
  intro F
  induction F with
  | zero =>
    intro cur ext p r h hr
    by_cases ht : truthy cur = true <;> simp [chainWalk, ht] at h
    obtain ⟨rfl, rfl⟩ := h
    simp at hr
  | succ F ih =>
    intro cur ext p r h hr
    match ext, hr with
    | r0 :: ext', hr =>
      obtain ⟨c, F', hF, _, hc, hb, hm, hw⟩ := chainWalk_cons_inv byU idxOf records h
      obtain rfl : F = F' := by omega
      rcases List.mem_cons.mp hr with rfl | hmem
      · exact ⟨c, hc, hb, hm⟩
      · exact ih r0.parentUuid ext' p r hw hmem

/-- Inversion of a successful walk producing an empty chain: the start was
falsy, unresolvable, or a compaction marker. -/
theorem chainWalk_nil_inv {F : Nat} {cur : Option String} {p : Option String}
    (h : chainWalk byU idxOf records F cur [] = some ([], p)) :
    (truthy cur = false ∧ p = none) ∨
      ∃ c, cur = some c ∧ ¬(c = "") ∧
        ((byU c = none ∧ p = none) ∨
          ∃ m, byU c = some m ∧ is_compaction_marker m = true ∧
            p = prevHeadOf idxOf records m) := by
  match F, cur with
  | 0, cur =>
    by_cases ht : truthy cur = true <;> simp [chainWalk, ht] at h
    exact Or.inl ⟨by simpa using ht, h.symm⟩
  | F' + 1, none =>
    simp [chainWalk] at h
    exact Or.inl ⟨rfl, h.symm⟩
  | F' + 1, some c =>
    by_cases hc : c = ""
    · simp [chainWalk, hc] at h
      exact Or.inl ⟨by simp [truthy, hc], h.symm⟩
    · cases hb : byU c with
      | none =>
        simp [chainWalk, hc, hb] at h
        exact Or.inr ⟨c, rfl, hc, Or.inl ⟨hb, h.symm⟩⟩
      | some record =>
        by_cases hm : is_compaction_marker record = true
        · simp [chainWalk, hc, hb, hm] at h
          exact Or.inr ⟨c, rfl, hc, Or.inr ⟨record, hb, hm, h.symm⟩⟩
        · simp only [chainWalk, hc, hb, hm, ite_false] at h
          rw [chainWalk_acc byU idxOf records F' record.parentUuid ([] ++ [record])] at h
          cases hw : chainWalk byU idxOf records F' record.parentUuid [] with
          | none => rw [hw] at h; simp at h
          | some q => rw [hw] at h; simp at h

end WalkStructure


/-! ## Lemmas about the outer segment loop -/

section LoopLemmas

variable (byU : String → Option Record) (idxOf : String → Option Nat) (records : List Record)

/-- A falsy head exits the outer loop immediately. -/
theorem segLoop_falsy {F : Nat} {h : Option String} (ht : truthy h = false) :
    segLoop byU idxOf records F h = some [] := by
  cases F <;> simp [segLoop, ht]

/-- Fuel monotonicity of the segment loop (one step). -/
theorem segLoop_mono : ∀ (F : Nat) (h : Option String) res,
    segLoop byU idxOf records F h = some res →
    segLoop byU idxOf records (F + 1) h = some res := by
  intro F
  induction F with
  | zero =>
    intro h res hs
    by_cases ht : truthy h = true
    · simp [segLoop, ht] at hs
    · rw [segLoop_falsy byU idxOf records (Bool.not_eq_true _ ▸ ht)] at hs ⊢
      exact hs
  | succ F ih =>
    intro h res hs
    by_cases ht : truthy h = true
    · simp only [segLoop, ht, if_true] at hs
      cases hw : chainWalk byU idxOf records (F + 1) h [] with
      | none => rw [hw] at hs; simp at hs
      | some q =>
        rw [hw] at hs
        simp only [Option.some_bind] at hs
        cases hr : segLoop byU idxOf records F q.2 with
        | none => rw [hr] at hs; simp at hs
        | some rest =>
          rw [hr] at hs
          simp only [Option.map_some'] at hs
          rw [segLoop]
          rw [if_pos ht, chainWalk_mono byU idxOf records (F + 1) h [] q hw]
          simp only [Option.some_bind]
          rw [ih q.2 rest hr]
          simpa using hs
    · rw [segLoop_falsy byU idxOf records (Bool.not_eq_true _ ▸ ht)] at hs ⊢
      exact hs

/-- Fuel monotonicity of the segment loop. -/
theorem segLoop_mono_le {F F' : Nat} (hle : F ≤ F') {h : Option String} {res}
    (hs : segLoop byU idxOf records F h = some res) :
    segLoop byU idxOf records F' h = some res := by
  induction hle with
  | refl => exact hs
  | step _ ih => exact segLoop_mono byU idxOf records _ h res ih

/-- Two successful runs of the segment loop from the same head agree. -/
theorem segLoop_det {F F' : Nat} {h : Option String} {res res'}
    (hs : segLoop byU idxOf records F h = some res)
    (hs' : segLoop byU idxOf records F' h = some res') : res = res' := by
  rcases Nat.le_total F F' with hle | hle
  · rw [segLoop_mono_le byU idxOf records hle hs] at hs'
    exact Option.some.inj hs'
  · rw [segLoop_mono_le byU idxOf records hle hs'] at hs
    exact (Option.some.inj hs).symm

/-- Every emitted segment is a successful chain walk (reversed to
chronological order), and the loop continues from that walk's
`prev_chain_head` to produce exactly the later-discovered segments. -/
theorem segLoop_chains : ∀ (F : Nat) (h : Option String) (out : List (List Record)),
    segLoop byU idxOf records F h = some out →
    ∀ (i : Nat) (c : List Record), out.get? i = some c →
    c ≠ [] ∧ ∃ h' F1 p, F1 ≤ F ∧ chainWalk byU idxOf records F1 h' [] = some (c.reverse, p) ∧
      ∃ F2, F2 ≤ F ∧ segLoop byU idxOf records F2 p = some (out.drop (i + 1)) := by
  intro F
  induction F with
  | zero =>
    intro h out hs i c hget
    by_cases ht : truthy h = true
    · simp [segLoop, ht] at hs
    · simp [segLoop, ht] at hs
      rw [hs] at hget
      simp at hget
  | succ F ih =>
    intro h out hs i c hget
    by_cases ht : truthy h = true
    · simp only [segLoop, ht, if_true] at hs
      cases hw : chainWalk byU idxOf records (F + 1) h [] with
      | none => rw [hw] at hs; simp at hs
      | some q =>
        rw [hw] at hs
        simp only [Option.some_bind] at hs
        cases hr : segLoop byU idxOf records F q.2 with
        | none => rw [hr] at hs; simp at hs
        | some rest =>
          rw [hr] at hs
          simp only [Option.map_some', Option.some.injEq] at hs
          by_cases hemp : q.1.isEmpty = true
          · rw [if_pos hemp] at hs
            subst hs
            obtain ⟨hne, h', F1, p, hF1, hw1, F2, hF2, hs2⟩ := ih q.2 rest hr i c hget
            exact ⟨hne, h', F1, p, Nat.le_succ_of_le hF1, hw1, F2, Nat.le_succ_of_le hF2, hs2⟩
          · rw [if_neg hemp] at hs
            subst hs
            match i, hget with
            | 0, hget =>
              simp only [List.get?] at hget
              obtain rfl : q.1.reverse = c := Option.some.inj hget
              refine ⟨?_, h, F + 1, q.2, Nat.le_refl _, ?_, F, Nat.le_succ F, ?_⟩
              · intro hcontra
                rw [List.reverse_eq_nil_iff] at hcontra
                rw [hcontra] at hemp
                simp at hemp
              · rw [List.reverse_reverse]; exact hw
              · simpa using hr
            | i' + 1, hget =>
              simp only [List.get?] at hget
              obtain ⟨hne, h', F1, p, hF1, hw1, F2, hF2, hs2⟩ := ih q.2 rest hr i' c hget
              exact ⟨hne, h', F1, p, Nat.le_succ_of_le hF1, hw1, F2, Nat.le_succ_of_le hF2,
                by simpa using hs2⟩
    · rw [segLoop_falsy byU idxOf records (Bool.not_eq_true _ ▸ ht)] at hs
      rw [(Option.some.inj hs).symm] at hget
      simp at hget

end LoopLemmas

/-! ## Disjointness of emitted segments

A record determines its walk tail and the `prev_chain_head` that follows it
(`chainWalk_idx`), so a record reappearing after its own segment would force
the loop to revisit the same head forever; in a terminating run this cannot
happen. -/

section Disjointness

variable (byU : String → Option Record) (idxOf : String → Option Nat) (records : List Record)

/-- In a terminating run, once the chain containing `r` is finished the loop
never meets `r` again: the rest of the run, started at `r`'s fate
`prev_chain_head`, avoids `r`. -/
theorem segLoop_fate : ∀ (F : Nat) (h : Option String) (out : List (List Record)),
    segLoop byU idxOf records F h = some out →
    ∀ (r : Record), r ∈ out.flatten →
    ∀ (G : Nat) (post : List Record) (p : Option String),
    chainWalk byU idxOf records G r.parentUuid [] = some (post, p) →
    ∃ F', F' ≤ F ∧ ∃ tail, segLoop byU idxOf records F' p = some tail ∧ r ∉ tail.flatten := by
  intro F
  induction F with
  | zero =>
    intro h out hs r hr G post p hG
    by_cases ht : truthy h = true
    · simp [segLoop, ht] at hs
    · simp [segLoop, ht] at hs
      subst hs
      simp at hr
  | succ F ih =>
    intro h out hs r hr G post p hG
    by_cases ht : truthy h = true
    · simp only [segLoop, ht, if_true] at hs
      cases hw : chainWalk byU idxOf records (F + 1) h [] with
      | none => rw [hw] at hs; simp at hs
      | some q =>
        rw [hw] at hs
        simp only [Option.some_bind] at hs
        cases hr2 : segLoop byU idxOf records F q.2 with
        | none => rw [hr2] at hs; simp at hs
        | some rest =>
          rw [hr2] at hs
          simp only [Option.map_some', Option.some.injEq] at hs
          by_cases hemp : q.1.isEmpty = true
          · rw [if_pos hemp] at hs
            subst hs
            obtain ⟨F', hF', tail, htl, hnot⟩ := ih q.2 rest hr2 r hr G post p hG
            exact ⟨F', Nat.le_succ_of_le hF', tail, htl, hnot⟩
          · rw [if_neg hemp] at hs
            subst hs
            have hr' : r ∈ q.1 ∨ ∃ l ∈ rest, r ∈ l := by simpa using hr
            rcases hr' with hmem' | ⟨l, hl, hrl⟩
            · obtain ⟨iidx, hgi⟩ := List.mem_iff_get?.mp hmem'
              have tFate := chainWalk_idx byU idxOf records iidx (F + 1) h q.1 q.2 r hw hgi
              have hdet := chainWalk_det byU idxOf records hG tFate
              have hp : p = q.2 := congrArg Prod.snd hdet
              refine ⟨F, Nat.le_succ F, rest, by rw [hp]; exact hr2, ?_⟩
              intro hmemrest
              obtain ⟨F'', hF'', tail'', htl'', hnot''⟩ :=
                ih q.2 rest hr2 r hmemrest G post p hG
              rw [hp] at htl''
              have heq : tail'' = rest := segLoop_det byU idxOf records htl'' hr2
              exact hnot'' (heq ▸ hmemrest)
            · have hmem : r ∈ rest.flatten := List.mem_flatten.mpr ⟨l, hl, hrl⟩
              obtain ⟨F', hF', tail, htl, hnot⟩ := ih q.2 rest hr2 r hmem G post p hG
              exact ⟨F', Nat.le_succ_of_le hF', tail, htl, hnot⟩
    · rw [segLoop_falsy byU idxOf records (Bool.not_eq_true _ ▸ ht)] at hs
      rw [← Option.some.inj hs] at hr
      simp at hr

/-- In a terminating run, the emitted segments are pairwise disjoint. -/
theorem segLoop_disjoint : ∀ (F : Nat) (h : Option String) (out : List (List Record)),
    segLoop byU idxOf records F h = some out → out.Pairwise List.Disjoint := by
  intro F
  induction F with
  | zero =>
    intro h out hs
    by_cases ht : truthy h = true
    · simp [segLoop, ht] at hs
    · simp [segLoop, ht] at hs
      subst hs
      exact List.Pairwise.nil
  | succ F ih =>
    intro h out hs
    by_cases ht : truthy h = true
    · simp only [segLoop, ht, if_true] at hs
      cases hw : chainWalk byU idxOf records (F + 1) h [] with
      | none => rw [hw] at hs; simp at hs
      | some q =>
        rw [hw] at hs
        simp only [Option.some_bind] at hs
        cases hr2 : segLoop byU idxOf records F q.2 with
        | none => rw [hr2] at hs; simp at hs
        | some rest =>
          rw [hr2] at hs
          simp only [Option.map_some', Option.some.injEq] at hs
          by_cases hemp : q.1.isEmpty = true
          · rw [if_pos hemp] at hs
            subst hs
            exact ih q.2 rest hr2
          · rw [if_neg hemp] at hs
            subst hs
            rw [List.pairwise_cons]
            refine ⟨?_, ih q.2 rest hr2⟩
            intro c' hc' r hr1 hrc'
            have hmem' : r ∈ q.1 := List.mem_reverse.mp hr1
            obtain ⟨iidx, hgi⟩ := List.mem_iff_get?.mp hmem'
            have tFate := chainWalk_idx byU idxOf records iidx (F + 1) h q.1 q.2 r hw hgi
            have hmemrest : r ∈ rest.flatten := List.mem_flatten.mpr ⟨c', hc', hrc'⟩
            obtain ⟨F'', hF'', tail'', htl'', hnot''⟩ :=
              segLoop_fate byU idxOf records F q.2 rest hr2 r hmemrest (F + 1)
                (q.1.drop (iidx + 1)) q.2 tFate
            have heq : tail'' = rest := segLoop_det byU idxOf records htl'' hr2
            exact hnot'' (heq ▸ hmemrest)
    · rw [segLoop_falsy byU idxOf records (Bool.not_eq_true _ ▸ ht)] at hs
      rw [← Option.some.inj hs]
      exact List.Pairwise.nil

/-- In a terminating run, no record occurs twice across the emitted
segments. -/
theorem segLoop_flatten_nodup {F : Nat} {h : Option String} {out : List (List Record)}
    (hs : segLoop byU idxOf records F h = some out) : out.flatten.Nodup := by
  rw [List.nodup_flatten]
  constructor
  · intro l hl
    obtain ⟨i, hgi⟩ := List.mem_iff_get?.mp hl
    obtain ⟨_, h', F1, p, _, hw1, _⟩ := segLoop_chains byU idxOf records F h out hs i l hgi
    exact List.nodup_reverse.mp (chainWalk_nodup byU idxOf records hw1)
  · exact segLoop_disjoint byU idxOf records F h out hs

end Disjointness

/-! ## Correspondence with the spec's live-chain set -/

section LiveChain

variable (byU : String → Option Record) (idxOf : String → Option Nat) (records : List Record)

/-- A falsy start yields the empty live chain. -/
theorem liveChain_falsy : ∀ (G : Nat) (cur : Option String), truthy cur = false →
    liveChainRecords byU idxOf records G cur = some [] := by
  intro G cur ht
  cases G with
  | zero => simp [liveChainRecords, ht]
  | succ G =>
    match cur with
    | none => simp [liveChainRecords]
    | some c =>
      have hc : c = "" := by simpa [truthy] using ht
      simp [liveChainRecords, hc]

/-- Fuel monotonicity of the live-chain collector (one step). -/
theorem liveChain_mono : ∀ (F : Nat) (cur : Option String) res,
    liveChainRecords byU idxOf records F cur = some res →
    liveChainRecords byU idxOf records (F + 1) cur = some res := by
  intro F
  induction F with
  | zero =>
    intro cur res h
    by_cases ht : truthy cur = true
    · simp [liveChainRecords, ht] at h
    · simp [liveChainRecords, ht] at h
      subst h
      exact liveChain_falsy byU idxOf records 1 cur (Bool.not_eq_true _ ▸ ht)
  | succ F ih =>
    intro cur res h
    match cur with
    | none => simpa [liveChainRecords] using h
    | some c =>
      by_cases hc : c = ""
      · simpa [liveChainRecords, hc] using h
      · cases hb : byU c with
        | none =>
          simp only [liveChainRecords, hc, ite_false, hb] at h ⊢
          exact h
        | some r =>
          by_cases hm : is_compaction_marker r = true
          · simp only [liveChainRecords, hc, ite_false, hb, hm, ite_true] at h ⊢
            exact ih _ res h
          · simp only [liveChainRecords, hc, ite_false, hb, hm] at h ⊢
            cases hlc : liveChainRecords byU idxOf records F r.parentUuid with
            | none => rw [hlc] at h; simp at h
            | some rest =>
              rw [hlc] at h
              rw [ih _ rest hlc]
              exact h

/-- Fuel monotonicity of the live-chain collector. -/
theorem liveChain_mono_le {F F' : Nat} (hle : F ≤ F') {cur : Option String} {res}
    (h : liveChainRecords byU idxOf records F cur = some res) :
    liveChainRecords byU idxOf records F' cur = some res := by
  induction hle with
  | refl => exact h
  | step _ ih => exact liveChain_mono byU idxOf records _ cur res ih

/-- A successful chain walk is an initial stretch of the live chain: the
walk's collected records followed by the live chain restarted at its
`prev_chain_head`. -/
theorem chainWalk_liveChain : ∀ (F : Nat) (cur : Option String) (ext : List Record)
    (p : Option String), chainWalk byU idxOf records F cur [] = some (ext, p) →
    ∀ (G : Nat) (rest : List Record),
    liveChainRecords byU idxOf records G p = some rest →
    liveChainRecords byU idxOf records (F + G) cur = some (ext ++ rest) := by
  intro F
  induction F with
  | zero =>
    intro cur ext p h G rest hlc
    by_cases ht : truthy cur = true
    · simp [chainWalk, ht] at h
    · simp [chainWalk, ht] at h
      obtain ⟨rfl, rfl⟩ := h
      have hrest : rest = [] :=
        (Option.some.inj ((liveChain_falsy byU idxOf records G none rfl).symm.trans hlc)).symm
      subst hrest
      simpa using liveChain_falsy byU idxOf records (0 + G) cur (Bool.not_eq_true _ ▸ ht)
  | succ F ih =>
    intro cur ext p h G rest hlc
    have harith : F + 1 + G = (F + G) + 1 := by omega
    match cur with
    | none =>
      simp [chainWalk] at h
      obtain ⟨rfl, rfl⟩ := h
      have hrest : rest = [] :=
        (Option.some.inj ((liveChain_falsy byU idxOf records G none rfl).symm.trans hlc)).symm
      subst hrest
      simpa using liveChain_falsy byU idxOf records (F + 1 + G) none rfl
    | some c =>
      by_cases hc : c = ""
      · simp [chainWalk, hc] at h
        obtain ⟨rfl, rfl⟩ := h
        have hrest : rest = [] :=
          (Option.some.inj ((liveChain_falsy byU idxOf records G none rfl).symm.trans hlc)).symm
        subst hrest
        simpa using liveChain_falsy byU idxOf records (F + 1 + G) (some c)
          (by simp [truthy, hc])
      · cases hb : byU c with
        | none =>
          simp [chainWalk, hc, hb] at h
          obtain ⟨rfl, rfl⟩ := h
          have hrest : rest = [] :=
            (Option.some.inj ((liveChain_falsy byU idxOf records G none rfl).symm.trans hlc)).symm
          subst hrest
          rw [harith]
          simp [liveChainRecords, hc, hb]
        | some r =>
          by_cases hm : is_compaction_marker r = true
          · simp [chainWalk, hc, hb, hm] at h
            obtain ⟨rfl, rfl⟩ := h
            rw [harith]
            simp only [liveChainRecords, hc, ite_false, hb, hm, ite_true]
            simpa using liveChain_mono_le byU idxOf records (Nat.le_add_left G F) hlc
          · simp only [chainWalk, hc, ite_false, hb, hm] at h
            rw [chainWalk_acc byU idxOf records F r.parentUuid ([] ++ [r])] at h
            cases hw : chainWalk byU idxOf records F r.parentUuid [] with
            | none => rw [hw] at h; simp at h
            | some q =>
              obtain ⟨ext0, p0⟩ := q
              rw [hw] at h
              simp only [Option.map_some'] at h
              have h' := Option.some.inj h
              have hext : ext = r :: ext0 := by
                have := congrArg Prod.fst h'
                simpa using this.symm
              have hp : p = p0 := (congrArg Prod.snd h').symm
              have hih := ih r.parentUuid ext0 p0 hw G rest (hp ▸ hlc)
              rw [harith]
              have hm' : is_compaction_marker r = false := by
                cases hmm : is_compaction_marker r
                · rfl
                · exact absurd hmm hm
              simp only [liveChainRecords, hc, ite_false, hb, hm', Bool.false_eq_true,
                if_false]
              rw [hih, hext]
              simp
end LiveChain

section LoopLive

variable (byU : String → Option Record) (idxOf : String → Option Nat) (records : List Record)

/-- A terminating run of the segment loop collects, across all its emitted
segments, exactly the live-chain records of the spec (newest first). -/
theorem segLoop_liveChain : ∀ (F : Nat) (h : Option String) (out : List (List Record)),
    segLoop byU idxOf records F h = some out →
    ∃ G, liveChainRecords byU idxOf records G h = some (out.map List.reverse).flatten := by
  intro F
  induction F with
  | zero =>
    intro h out hs
    by_cases ht : truthy h = true
    · simp [segLoop, ht] at hs
    · simp [segLoop, ht] at hs
      subst hs
      exact ⟨0, by simpa using liveChain_falsy byU idxOf records 0 h (Bool.not_eq_true _ ▸ ht)⟩
  | succ F ih =>
    intro h out hs
    by_cases ht : truthy h = true
    · simp only [segLoop, ht, if_true] at hs
      cases hw : chainWalk byU idxOf records (F + 1) h [] with
      | none => rw [hw] at hs; simp at hs
      | some q =>
        rw [hw] at hs
        simp only [Option.some_bind] at hs
        cases hr : segLoop byU idxOf records F q.2 with
        | none => rw [hr] at hs; simp at hs
        | some rest =>
          rw [hr] at hs
          simp only [Option.map_some', Option.some.injEq] at hs
          obtain ⟨G, hlc⟩ := ih q.2 rest hr
          have hwl := chainWalk_liveChain byU idxOf records (F + 1) h q.1 q.2 hw G _ hlc
          refine ⟨F + 1 + G, ?_⟩
          rw [hwl]
          by_cases hemp : q.1.isEmpty = true
          · rw [if_pos hemp] at hs
            subst hs
            have hq : q.1 = [] := by simpa using hemp
            simp [hq]
          · rw [if_neg hemp] at hs
            subst hs
            simp
    · rw [segLoop_falsy byU idxOf records (Bool.not_eq_true _ ▸ ht)] at hs
      rw [← Option.some.inj hs]
      exact ⟨0, by simpa using liveChain_falsy byU idxOf records 0 h (Bool.not_eq_true _ ▸ ht)⟩

end LoopLive

/-! ## The record-store indices: `by_uuid` and `uuid_to_index` -/

/-- Whatever `by_uuid` returns carries the identifier it was looked up by
(the dict maps `record['uuid']` to `record`). -/
theorem byUuid_uuid : ∀ (records : List Record) (u : String) (r : Record),
    byUuid u records = some r → r.uuid = some u := by
  intro records
  induction records with
  | nil => intro u r h; simp [byUuid] at h
  | cons r0 rest ih =>
    intro u r h
    simp only [byUuid] at h
    cases hb : byUuid u rest with
    | some r' =>
      rw [hb] at h
      rw [← Option.some.inj h]
      exact ih u r' hb
    | none =>
      rw [hb] at h
      by_cases hu : r0.uuid = some u
      · rw [if_pos hu] at h
        rw [← Option.some.inj h]
        exact hu
      · rw [if_neg hu] at h
        simp at h

/-- `by_uuid` and `uuid_to_index` are two views of the same dict build:
either both miss, or they return the record at the returned index. -/
theorem byUuid_lastIdx : ∀ (records : List Record) (u : String),
    (byUuid u records = none ∧ lastIdx u records = none) ∨
    ∃ r i, byUuid u records = some r ∧ lastIdx u records = some i ∧ records.get? i = some r := by
  intro records
  induction records with
  | nil => intro u; exact Or.inl ⟨rfl, rfl⟩
  | cons r0 rest ih =>
    intro u
    rcases ih u with ⟨hb, hl⟩ | ⟨r, i, hb, hl, hg⟩
    · simp only [byUuid, lastIdx, hb, hl]
      by_cases hu : r0.uuid = some u
      · rw [if_pos hu, if_pos hu]
        exact Or.inr ⟨r0, 0, rfl, rfl, rfl⟩
      · rw [if_neg hu, if_neg hu]
        exact Or.inl ⟨rfl, rfl⟩
    · simp only [byUuid, lastIdx, hb, hl]
      exact Or.inr ⟨r, i + 1, rfl, rfl, by simpa using hg⟩

/-- The index returned by `uuid_to_index` holds a record carrying the
identifier. -/
theorem lastIdx_get : ∀ (records : List Record) (u : String) (i : Nat),
    lastIdx u records = some i → ∃ r, records.get? i = some r ∧ r.uuid = some u := by
  intro records
  induction records with
  | nil => intro u i h; simp [lastIdx] at h
  | cons r0 rest ih =>
    intro u i h
    simp only [lastIdx] at h
    cases hl : lastIdx u rest with
    | some j =>
      rw [hl] at h
      rw [← Option.some.inj h]
      obtain ⟨r, hg, hu⟩ := ih u j hl
      exact ⟨r, by simpa using hg, hu⟩
    | none =>
      rw [hl] at h
      by_cases hu : r0.uuid = some u
      · rw [if_pos hu] at h
        rw [← Option.some.inj h]
        exact ⟨r0, rfl, hu⟩
      · rw [if_neg hu] at h
        simp at h

/-- No two records of the log share an identifier. -/
abbrev UniqueUuids (records : List Record) : Prop :=
  records.Pairwise (fun r r' => r.uuid = none ∨ r.uuid ≠ r'.uuid)

/-- With unique identifiers, `uuid_to_index` recovers the physical index of
any record that carries an identifier. -/
theorem lastIdx_of_unique : ∀ (records : List Record), UniqueUuids records →
    ∀ (i : Nat) (r : Record) (u : String), records.get? i = some r → r.uuid = some u →
    lastIdx u records = some i := by
  intro records
  induction records with
  | nil => intro _ i r u hg _; simp at hg
  | cons r0 rest ih =>
    intro hpw i r u hg hu
    obtain ⟨hhead, htail⟩ := List.pairwise_cons.mp hpw
    match i with
    | 0 =>
      simp only [List.get?] at hg
      obtain rfl : r0 = r := Option.some.inj hg
      have hnone : lastIdx u rest = none := by
        cases hl : lastIdx u rest with
        | none => rfl
        | some j =>
          obtain ⟨r', hg', hu'⟩ := lastIdx_get rest u j hl
          have hmem : r' ∈ rest := List.get?_mem hg'
          rcases hhead r' hmem with h1 | h1
          · rw [hu] at h1; simp at h1
          · exact absurd (hu.trans hu'.symm) h1
      simp [lastIdx, hnone, hu]
    | i' + 1 =>
      simp only [List.get?] at hg
      have := ih htail i' r u hg hu
      simp [lastIdx, this]

/-! ## Termination on well-formed logs

The code's two `while` loops need not terminate on arbitrary parent graphs
(a record whose parent chain revisits an identifier loops forever).  On
well-formed transcript logs — every resolvable parent reference points to a
strictly earlier physical line, and identifiers are unique — both loops
terminate: each walk step strictly decreases the physical index of the
current record, and each boundary fallback moves strictly before the
marker. -/

/-- Bounded well-formedness check at index `i`: if the record at `i` is the
index representative of its identifier and has a resolvable non-empty
parent reference, that parent's index is strictly smaller. -/
def descendAt (records : List Record) (i : Nat) : Bool :=
  match records.get? i with
  | none => true
  | some r =>
    match r.uuid with
    | none => true
    | some u =>
      if lastIdx u records = some i then
        match r.parentUuid with
        | none => true
        | some p =>
          if p = "" then true
          else
            match lastIdx p records with
            | none => true
            | some j => decide (j < i)
      else true

/-- Every resolvable parent reference points strictly earlier in the file. -/
def parentsDescendB (records : List Record) : Bool :=
  (List.range records.length).all (fun i => descendAt records i)

theorem descendAt_all {records : List Record} (h : parentsDescendB records = true) :
    ∀ i, descendAt records i = true := by
  intro i
  by_cases hi : i < records.length
  · exact List.all_eq_true.mp h i (List.mem_range.mpr hi)
  · have hg : records.get? i = none := List.get?_eq_none.mpr (Nat.le_of_not_lt hi)
    unfold descendAt
    rw [hg]

/-- The well-formedness fact in the form the walk needs: following a
resolvable truthy parent reference strictly decreases the index. -/
theorem descend_fact {records : List Record} (hd : ∀ i, descendAt records i = true) :
    ∀ (c : String) (r : Record) (i : Nat), byUuid c records = some r →
    lastIdx c records = some i →
    ∀ p, r.parentUuid = some p → ¬(p = "") → ∀ j, lastIdx p records = some j → j < i := by
  intro c r i hb hl p hp hpne j hj
  rcases byUuid_lastIdx records c with ⟨hb', _⟩ | ⟨r', i', hb', hl', hg⟩
  · rw [hb'] at hb; simp at hb
  · rw [hb'] at hb
    obtain rfl : r = r' := (Option.some.inj hb).symm
    rw [hl'] at hl
    obtain rfl : i = i' := (Option.some.inj hl).symm
    have hu : r.uuid = some c := byUuid_uuid records c r hb'
    have hg' : records[i]? = some r := by rw [← List.get?_eq_getElem?]; exact hg
    have hdi := hd i
    simp [descendAt, hg', hu, hl', hp, hpne, hj] at hdi
    exact hdi

/-- On a well-formed log, the chain walk terminates whenever the fuel
exceeds the physical index of the starting record. -/
theorem chainWalk_total {records : List Record} (hd : ∀ i, descendAt records i = true) :
    ∀ (n : Nat) (cur : Option String) (chain : List Record),
    (truthy cur = true →
      1 ≤ n ∧ ∀ c i, cur = some c → lastIdx c records = some i → i + 2 ≤ n) →
    chainWalk (fun u => byUuid u records) (uuidToIndex records) records n cur chain ≠ none := by
  intro n
  induction n with
  | zero =>
    intro cur chain hbound
    by_cases ht : truthy cur = true
    · exact absurd (hbound ht).1 (by omega)
    · simp [chainWalk, Bool.not_eq_true _ ▸ ht]
  | succ n ih =>
    intro cur chain hbound
    match cur with
    | none => simp [chainWalk]
    | some c =>
      by_cases hc : c = ""
      · simp [chainWalk, hc]
      · simp only [chainWalk, hc, ite_false]
        cases hb : byUuid c records with
        | none => simp
        | some r =>
          by_cases hm : is_compaction_marker r = true
          · simp [hm]
          · have hm' : is_compaction_marker r = false := by
              cases hmm : is_compaction_marker r
              · rfl
              · exact absurd hmm hm
            simp only [hm', Bool.false_eq_true, if_false]
            apply ih r.parentUuid (chain ++ [r])
            intro htp
            obtain ⟨p', hp'⟩ : ∃ p', r.parentUuid = some p' := by
              cases hpp : r.parentUuid
              · rw [hpp] at htp; simp [truthy] at htp
              · exact ⟨_, rfl⟩
            have hpne : ¬(p' = "") := by
              rw [hp'] at htp
              simpa [truthy] using htp
            rcases byUuid_lastIdx records c with ⟨hb', _⟩ | ⟨r', i', hb', hl', _⟩
            · rw [hb'] at hb; simp at hb
            · rw [hb'] at hb
              obtain rfl : r = r' := (Option.some.inj hb).symm
              have hbc := (hbound (by simp [truthy, hc])).2 c i' rfl hl'
              refine ⟨by omega, ?_⟩
              intro c2 j hc2 hj
              rw [hp'] at hc2
              obtain rfl : p' = c2 := Option.some.inj hc2
              have hlt := descend_fact hd c r i' hb' hl' p' hp' hpne j hj
              omega

/-- On a well-formed log with unique identifiers, the `prev_chain_head` a
walk hands back sits strictly before the walk's starting record: its index
is at most the start's index minus one. -/
theorem chainWalk_prev_bound {records : List Record} (hd : ∀ i, descendAt records i = true)
    (hun : UniqueUuids records) :
    ∀ (n : Nat) (cur : Option String) (chain ext : List Record) (p : Option String),
    chainWalk (fun u => byUuid u records) (uuidToIndex records) records n cur chain =
      some (ext, p) →
    ∀ (K : Nat), (∀ c i, cur = some c → ¬(c = "") → lastIdx c records = some i → i < K) →
    truthy p = true → ∃ c' j, p = some c' ∧ lastIdx c' records = some j ∧ j + 2 ≤ K := by
  intro n
  induction n with
  | zero =>
    intro cur chain ext p h K hK htp
    by_cases ht : truthy cur = true
    · simp [chainWalk, ht] at h
    · simp [chainWalk, ht] at h
      rw [← h.2] at htp
      simp [truthy] at htp
  | succ n ih =>
    intro cur chain ext p h K hK htp
    match cur with
    | none =>
      simp [chainWalk] at h
      rw [← h.2] at htp
      simp [truthy] at htp
    | some c =>
      by_cases hc : c = ""
      · simp [chainWalk, hc] at h
        rw [← h.2] at htp
        simp [truthy] at htp
      · cases hb : byUuid c records with
        | none =>
          simp [chainWalk, hc, hb] at h
          rw [← h.2] at htp
          simp [truthy] at htp
        | some r =>
          by_cases hm : is_compaction_marker r = true
          · simp [chainWalk, hc, hb, hm] at h
            have hu : r.uuid = some c := byUuid_uuid records c r hb
            rcases byUuid_lastIdx records c with ⟨hb', _⟩ | ⟨r', i', hb', hl', _⟩
            · rw [hb'] at hb; simp at hb
            · have hp2 : p = prevHeadOf (uuidToIndex records) records r := h.2.symm
              by_cases hpos : 0 < i'
              · cases hgp : records.get? (i' - 1) with
                | none =>
                  have hgp' : records[i' - 1]? = none := by
                    rw [← List.get?_eq_getElem?]; exact hgp
                  have hpn : p = none := by
                    rw [hp2]
                    simp [prevHeadOf, hu, uuidToIndex, hl', hpos, hgp']
                  rw [hpn] at htp
                  simp [truthy] at htp
                | some prevRec =>
                  have hgp' : records[i' - 1]? = some prevRec := by
                    rw [← List.get?_eq_getElem?]; exact hgp
                  have hp3 : p = prevRec.uuid := by
                    rw [hp2]
                    simp [prevHeadOf, hu, uuidToIndex, hl', hpos, hgp']
                  cases hpu : prevRec.uuid with
                  | none =>
                    rw [hpu] at hp3
                    rw [hp3] at htp
                    simp [truthy] at htp
                  | some c' =>
                    have hlast : lastIdx c' records = some (i' - 1) :=
                      lastIdx_of_unique records hun (i' - 1) prevRec c' hgp hpu
                    have hiK : i' < K := hK c i' rfl hc hl'
                    exact ⟨c', i' - 1, by rw [hp3, hpu], hlast, by omega⟩
              · have hpn : p = none := by
                  rw [hp2]
                  simp [prevHeadOf, hu, uuidToIndex, hl', hpos]
                rw [hpn] at htp
                simp [truthy] at htp
          · simp only [chainWalk, hc, ite_false, hb] at h
            have hm' : is_compaction_marker r = false := by
              cases hmm : is_compaction_marker r
              · rfl
              · exact absurd hmm hm
            rw [hm'] at h
            simp only [Bool.false_eq_true, if_false] at h
            apply ih r.parentUuid (chain ++ [r]) ext p h K ?_ htp
            intro c2 j hc2 hc2ne hj
            rcases byUuid_lastIdx records c with ⟨hb', _⟩ | ⟨r', i', hb', hl', _⟩
            · rw [hb'] at hb; simp at hb
            · rw [hb'] at hb
              obtain rfl : r = r' := (Option.some.inj hb).symm
              have hiK : i' < K := hK c i' rfl hc hl'
              have hlt := descend_fact hd c r i' hb' hl' c2 hc2 hc2ne j hj
              omega

/-- On a well-formed log with unique identifiers, the outer segment loop
terminates whenever the fuel exceeds the starting head's physical index
by two. -/
theorem segLoop_total {records : List Record} (hd : ∀ i, descendAt records i = true)
    (hun : UniqueUuids records) :
    ∀ (F : Nat) (h : Option String),
    (truthy h = true →
      1 ≤ F ∧ ∀ c i, h = some c → lastIdx c records = some i → i + 2 ≤ F) →
    segLoop (fun u => byUuid u records) (uuidToIndex records) records F h ≠ none := by
  intro F
  induction F with
  | zero =>
    intro h hbound
    by_cases ht : truthy h = true
    · exact absurd (hbound ht).1 (by omega)
    · simp [segLoop, Bool.not_eq_true _ ▸ ht]
  | succ F ih =>
    intro h hbound
    by_cases ht : truthy h = true
    · obtain ⟨c, rfl, hc⟩ : ∃ c, h = some c ∧ ¬(c = "") := by
        match h, ht with
        | some c, ht => exact ⟨c, rfl, by simpa [truthy] using ht⟩
      have hwnn := chainWalk_total hd (F + 1) (some c) []
        (fun htc => ⟨by omega, fun c2 i hc2 hi =>
          (hbound ht).2 c2 i hc2 hi⟩)
      cases hw : chainWalk (fun u => byUuid u records) (uuidToIndex records) records
          (F + 1) (some c) [] with
      | none => exact absurd hw hwnn
      | some q =>
        simp only [segLoop, ht, if_true, hw, Option.some_bind]
        intro hcontra
        have hnone : segLoop (fun u => byUuid u records) (uuidToIndex records) records
            F q.2 = none := by
          cases hql : segLoop (fun u => byUuid u records) (uuidToIndex records) records
              F q.2 with
          | none => rfl
          | some rest => rw [hql] at hcontra; simp at hcontra
        refine ih q.2 ?_ hnone
        intro htp
        cases hli : lastIdx c records with
        | none =>
          rcases byUuid_lastIdx records c with ⟨hb', _⟩ | ⟨r', i', hb', hl', _⟩
          · have hwE : chainWalk (fun u => byUuid u records) (uuidToIndex records) records
                (F + 1) (some c) [] = some ([], none) := by
              simp [chainWalk, hc, hb']
            have hqE : q = ([], (none : Option String)) :=
              chainWalk_det (fun u => byUuid u records) (uuidToIndex records) records hw hwE
            rw [hqE] at htp
            simp [truthy] at htp
          · rw [hl'] at hli; simp at hli
        | some i0 =>
          have hq' : chainWalk (fun u => byUuid u records) (uuidToIndex records) records
              (F + 1) (some c) [] = some (q.1, q.2) := hw
          obtain ⟨c', j, hp', hlj, hj2⟩ :=
            chainWalk_prev_bound hd hun (F + 1) (some c) [] q.1 q.2 hq' (i0 + 1)
              (fun c2 i hc2 _ hi => by
                obtain rfl : c = c2 := Option.some.inj hc2
                rw [hli] at hi
                obtain rfl : i0 = i := Option.some.inj hi
                omega)
              htp
          have hi0 := (hbound ht).2 c i0 rfl hli
          refine ⟨by omega, ?_⟩
          intro c2 j2 hc2 hj2'
          rw [hp'] at hc2
          obtain rfl : c' = c2 := Option.some.inj hc2
          rw [hlj] at hj2'
          obtain rfl : j = j2 := Option.some.inj hj2'
          omega
    · rw [segLoop_falsy (fun u => byUuid u records) (uuidToIndex records) records
        (Bool.not_eq_true _ ▸ ht)]
      simp

/-- On a well-formed log with unique identifiers, `extract_all_segments`
terminates: some fuel makes it return a result. -/
theorem extract_total {records : List Record} (hd : parentsDescendB records = true)
    (hun : UniqueUuids records) (head_uuid : String) :
    ∃ F out, extract_all_segments F head_uuid (fun u => byUuid u records) records = some out := by
  have hd' := descendAt_all hd
  by_cases ht : truthy (some head_uuid) = true
  · cases hli : lastIdx head_uuid records with
    | none =>
      have hne := segLoop_total hd' hun 1 (some head_uuid)
        (fun _ => ⟨Nat.le_refl 1, fun c i hc hi => by
          obtain rfl : head_uuid = c := Option.some.inj hc
          rw [hli] at hi
          simp at hi⟩)
      cases hres : segLoop (fun u => byUuid u records) (uuidToIndex records) records 1
          (some head_uuid) with
      | none => exact absurd hres hne
      | some out => exact ⟨1, out.reverse, by simp [extract_all_segments, hres]⟩
    | some i0 =>
      have hne := segLoop_total hd' hun (i0 + 2) (some head_uuid)
        (fun _ => ⟨by omega, fun c i hc hi => by
          obtain rfl : head_uuid = c := Option.some.inj hc
          rw [hli] at hi
          obtain rfl : i0 = i := Option.some.inj hi
          omega⟩)
      cases hres : segLoop (fun u => byUuid u records) (uuidToIndex records) records (i0 + 2)
          (some head_uuid) with
      | none => exact absurd hres hne
      | some out => exact ⟨i0 + 2, out.reverse, by simp [extract_all_segments, hres]⟩
  · exact ⟨0, [], by
      simp [extract_all_segments,
        segLoop_falsy (fun u => byUuid u records) (uuidToIndex records) records
          (Bool.not_eq_true _ ▸ ht)]⟩

/-! ## Closed form of the identity rewriter -/

/-- After the first `t` records the `old_to_new` dict of `rewriteAux` is
exactly `mapUpTo gen seg t`, and record `t + j` of the output is record
`t + j` of the input with its three identity fields replaced. -/
theorem rewriteAux_get? (gen : Nat → String) (sid : String) (seg : List Record) :
    ∀ (j t : Nat),
    (rewriteAux gen sid (seg.drop t) t (mapUpTo gen seg t)).get? j =
      (seg.get? (t + j)).map (fun r =>
        { r with uuid := some (gen (t + j)), sessionId := some sid,
                 parentUuid := parVal gen seg (t + j) }) := by
  intro j
  induction j with
  | zero =>
    intro t
    cases hg : seg.get? t with
    | none =>
      have hg' : seg[t]? = none := by rw [← List.get?_eq_getElem?]; exact hg
      have hdrop : seg.drop t = [] :=
        List.drop_eq_nil_of_le (List.get?_eq_none.mp hg)
      rw [hdrop]
      simp [rewriteAux, hg']
    | some r =>
      have hg' : seg[t]? = some r := by rw [← List.get?_eq_getElem?]; exact hg
      have hlt : t < seg.length := by
        rcases List.get?_eq_some.mp hg with ⟨h, _⟩
        exact h
      have hdrop : seg.drop t = r :: seg.drop (t + 1) := by
        rw [List.drop_eq_getElem_cons hlt]
        congr 1
        exact Option.some.inj ((List.getElem?_eq_getElem hlt).symm.trans hg')
      rw [hdrop]
      have hm' : insEntry gen t r (mapUpTo gen seg t) = mapUpTo gen seg (t + 1) := by
        simp [mapUpTo, hg']
      simp only [rewriteAux, List.get?, hm', Nat.add_zero, hg, Option.map_some']
      simp [parVal, hg']
  | succ j ih =>
    intro t
    cases hg : seg.get? t with
    | none =>
      have hdrop : seg.drop t = [] :=
        List.drop_eq_nil_of_le (List.get?_eq_none.mp hg)
      rw [hdrop]
      have hnone : seg.get? (t + (j + 1)) = none :=
        List.get?_eq_none.mpr (Nat.le_trans (List.get?_eq_none.mp hg) (by omega))
      have hnone' : seg[t + (j + 1)]? = none := by
        rw [← List.get?_eq_getElem?]; exact hnone
      simp [rewriteAux, hnone']
    | some r =>
      have hg' : seg[t]? = some r := by rw [← List.get?_eq_getElem?]; exact hg
      have hlt : t < seg.length := by
        rcases List.get?_eq_some.mp hg with ⟨h, _⟩
        exact h
      have hdrop : seg.drop t = r :: seg.drop (t + 1) := by
        rw [List.drop_eq_getElem_cons hlt]
        congr 1
        exact Option.some.inj ((List.getElem?_eq_getElem hlt).symm.trans hg')
      rw [hdrop]
      have hm' : insEntry gen t r (mapUpTo gen seg t) = mapUpTo gen seg (t + 1) := by
        simp [mapUpTo, hg']
      simp only [rewriteAux, List.get?, hm']
      rw [ih (t + 1)]
      have harith : t + 1 + j = t + (j + 1) := by omega
      rw [harith]

/-- The closed form at the top level: record `j` of `rewrite_uuids segment`
is record `j` of the segment with fresh identifier `gen j`, the supplied
session identifier, and the remapped parent. -/
theorem rewrite_uuids_get? (gen : Nat → String) (sid : String) (seg : List Record) (j : Nat) :
    (rewrite_uuids seg sid gen).get? j =
      (seg.get? j).map (fun r =>
        { r with uuid := some (gen j), sessionId := some sid,
                 parentUuid := parVal gen seg j }) := by
  have h0 := rewriteAux_get? gen sid seg j 0
  simpa [rewrite_uuids, mapUpTo] using h0

/-- Output length of the rewriter body equals input length. -/
theorem rewriteAux_length (gen : Nat → String) (sid : String) :
    ∀ (l : List Record) (t : Nat) (m : List (String × String)),
    (rewriteAux gen sid l t m).length = l.length := by
  intro l
  induction l with
  | nil => intro t m; simp [rewriteAux]
  | cons r rest ih => intro t m; simp [rewriteAux, ih]

/-- `rewrite_uuids` preserves the number of records. -/
theorem rewrite_uuids_length (seg : List Record) (sid : String) (gen : Nat → String) :
    (rewrite_uuids seg sid gen).length = seg.length :=
  rewriteAux_length gen sid seg 0 []

/-- The non-identity payload of a record (every field other than `uuid`,
`parentUuid` and `sessionId`). -/
def payloadOf (r : Record) : Option String × Option String × Bool × List (String × String) :=
  (r.type, r.subtype, r.isCompactSummary, r.extra)

/-- One-step unfolding of the `old_to_new` build. -/
theorem mapUpTo_succ_eq (gen : Nat → String) (seg : List Record) (t : Nat) (r : Record)
    (hg : seg.get? t = some r) :
    mapUpTo gen seg (t + 1) = insEntry gen t r (mapUpTo gen seg t) := by
  rw [mapUpTo, hg]

/-- Core of the self-containment property: under the structural facts that
hold for every pipeline-produced segment (truthy identifiers, adjacent
parent links, identifier injectivity, and a stuck first parent), the
rewriter nulls the first parent and points every later parent at the fresh
identifier of the immediately preceding output record. -/
theorem rewrite_parent_structure (gen : Nat → String) (sid : String) (seg : List Record)
    (S1 : ∀ i r, seg.get? i = some r → ∃ c, ¬(c = "") ∧ r.uuid = some c)
    (S2 : ∀ i r r', seg.get? i = some r → seg.get? (i + 1) = some r' → r'.parentUuid = r.uuid)
    (S3 : ∀ i j r r', seg.get? i = some r → seg.get? j = some r' → r.uuid = r'.uuid → i = j)
    (S4 : ∀ r0 c, seg.get? 0 = some r0 → r0.parentUuid = some c → ¬(c = "") →
      r0.uuid ≠ some c) :
    ∀ j r', (rewrite_uuids seg sid gen).get? j = some r' →
      (j = 0 → r'.parentUuid = none) ∧
      (∀ jj, j = jj + 1 → ∃ rk, (rewrite_uuids seg sid gen).get? jj = some rk ∧
        r'.parentUuid = rk.uuid) := by
  intro j r' hj
  rw [rewrite_uuids_get? gen sid seg j] at hj
  cases hsg : seg.get? j with
  | none => rw [hsg] at hj; simp at hj
  | some rj =>
    rw [hsg] at hj
    simp only [Option.map_some', Option.some.injEq] at hj
    constructor
    · rintro rfl
      rw [← hj]
      show parVal gen seg 0 = none
      obtain ⟨c0, hc0ne, hu0⟩ := S1 0 rj hsg
      have hmap1 : mapUpTo gen seg (0 + 1) = [(c0, gen 0)] := by
        rw [mapUpTo_succ_eq gen seg 0 rj hsg]
        simp [mapUpTo, insEntry, hu0, hc0ne]
      simp only [parVal, hsg]
      rw [hmap1]
      cases hpp : rj.parentUuid with
      | none => simp [lookupParent]
      | some p =>
        by_cases hpe : p = ""
        · simp [lookupParent, hpe]
        · have hne : rj.uuid ≠ some p := S4 rj p hsg hpp hpe
          have hc0p : ¬(c0 = p) := fun hcp => hne (hcp ▸ hu0)
          simp [lookupParent, hpe, List.find?, hc0p]
    · rintro jj rfl
      have hlt : jj + 1 < seg.length := by
        rcases List.get?_eq_some.mp hsg with ⟨h, _⟩
        exact h
      obtain ⟨rjj, hsgj⟩ : ∃ rjj, seg.get? jj = some rjj := by
        cases hq : seg.get? jj with
        | none =>
          have := List.get?_eq_none.mp hq
          omega
        | some rjj => exact ⟨rjj, rfl⟩
      obtain ⟨u, hune, huj⟩ := S1 jj rjj hsgj
      obtain ⟨cj, hcjne, hucj⟩ := S1 (jj + 1) rj hsg
      have hpar : rj.parentUuid = some u := by
        rw [S2 jj rjj rj hsgj hsg, huj]
      have hcju : ¬(cj = u) := by
        intro hequ
        have huu : rj.uuid = rjj.uuid := by rw [hucj, huj, hequ]
        have := S3 (jj + 1) jj rj rjj hsg hsgj huu
        omega
      have hmapj1 : mapUpTo gen seg (jj + 1) = (u, gen jj) :: mapUpTo gen seg jj := by
        rw [mapUpTo_succ_eq gen seg jj rjj hsgj]
        simp [insEntry, huj, hune]
      have hmapj2 : mapUpTo gen seg (jj + 1 + 1) =
          (cj, gen (jj + 1)) :: (u, gen jj) :: mapUpTo gen seg jj := by
        rw [mapUpTo_succ_eq gen seg (jj + 1) rj hsg, hmapj1]
        simp [insEntry, hucj, hcjne]
      have hpv : parVal gen seg (jj + 1) = some (gen jj) := by
        simp only [parVal, hsg]
        rw [hmapj2, hpar]
        simp [lookupParent, hune, List.find?, hcju]
      refine ⟨{ rjj with uuid := some (gen jj), sessionId := some sid, parentUuid := parVal gen seg jj }, ?_, ?_⟩
      · rw [rewrite_uuids_get? gen sid seg jj, hsgj]
        simp only [Option.map_some']
      · rw [← hj]
        show parVal gen seg (jj + 1) = _
        rw [hpv]

/-! ## Structure of pipeline-produced segments -/

/-- In a duplicate-free list, positions holding the same element agree. -/
theorem nodup_get?_inj {α : Type} {l : List α} (hnd : l.Nodup) :
    ∀ {i j : Nat} {a : α}, l.get? i = some a → l.get? j = some a → i = j := by
  intro i j a hi hj
  rcases List.get?_eq_some.mp hi with ⟨hilt, hig⟩
  rcases List.get?_eq_some.mp hj with ⟨hjlt, hjg⟩
  have hget : l.get ⟨i, hilt⟩ = l.get ⟨j, hjlt⟩ := by rw [hig, hjg]
  have := List.nodup_iff_injective_get.mp hnd hget
  exact congrArg Fin.val this

section SegStructure

variable (byU : String → Option Record) (idxOf : String → Option Nat) (records : List Record)

/-- Every record of a chronological pipeline segment resolves from a truthy
identifier, carries it as its own `uuid`, and is not a marker.  `Hfaith` is
the defining property of the `by_uuid` dict. -/
theorem walk_seg_S1 (Hfaith : ∀ c r, byU c = some r → r.uuid = some c)
    {F : Nat} {h' : Option String} {s : List Record} {p : Option String}
    (hw : chainWalk byU idxOf records F h' [] = some (s.reverse, p)) :
    ∀ i r, s.get? i = some r →
      ∃ c, ¬(c = "") ∧ r.uuid = some c ∧ byU c = some r ∧
        is_compaction_marker r = false := by
  intro i r hi
  have hmem : r ∈ s.reverse := List.mem_reverse.mpr (List.get?_mem hi)
  obtain ⟨c, hcne, hbc, hm⟩ := chainWalk_mem byU idxOf records F h' s.reverse p r hw hmem
  exact ⟨c, hcne, Hfaith c r hbc, hbc, hm⟩

/-- Identifier injectivity inside a chronological pipeline segment. -/
theorem walk_seg_S3 (Hfaith : ∀ c r, byU c = some r → r.uuid = some c)
    {F : Nat} {h' : Option String} {s : List Record} {p : Option String}
    (hw : chainWalk byU idxOf records F h' [] = some (s.reverse, p)) :
    ∀ i j r r', s.get? i = some r → s.get? j = some r' → r.uuid = r'.uuid → i = j := by
  intro i j r r' hi hj huu
  obtain ⟨c, _, huc, hbc, _⟩ := walk_seg_S1 byU idxOf records Hfaith hw i r hi
  obtain ⟨c', _, huc', hbc', _⟩ := walk_seg_S1 byU idxOf records Hfaith hw j r' hj
  have hcc : c = c' := by
    have : some c = some c' := by rw [← huc, huu, huc']
    exact Option.some.inj this
  have hrr : r = r' := by
    rw [hcc] at hbc
    exact Option.some.inj (hbc.symm.trans hbc')
  have hnd : s.Nodup := List.nodup_reverse.mp (chainWalk_nodup byU idxOf records hw)
  exact nodup_get?_inj hnd hi (hrr ▸ hj)

/-- Adjacent records of a chronological pipeline segment are linked: each
record's parent reference is the previous record's identifier. -/
theorem walk_seg_S2 (Hfaith : ∀ c r, byU c = some r → r.uuid = some c)
    {F : Nat} {h' : Option String} {s : List Record} {p : Option String}
    (hw : chainWalk byU idxOf records F h' [] = some (s.reverse, p)) :
    ∀ i r r', s.get? i = some r → s.get? (i + 1) = some r' → r'.parentUuid = r.uuid := by
  intro i r r' hi hi1
  have hL1 : i + 1 < s.length := by
    rcases List.get?_eq_some.mp hi1 with ⟨h, _⟩
    exact h
  have hLrev : s.reverse.length = s.length := List.length_reverse s
  have hrk : s.reverse.get? (s.length - 1 - (i + 1)) = some r' := by
    have hrw : s.reverse.get? (s.length - 1 - (i + 1)) =
        s.get? (s.length - 1 - (s.length - 1 - (i + 1))) := by
      have hb : s.length - 1 - (i + 1) < s.length := by omega
      exact List.get?_reverse (by omega)
    rw [hrw]
    have : s.length - 1 - (s.length - 1 - (i + 1)) = i + 1 := by omega
    rw [this]
    exact hi1
  have hrk1 : s.reverse.get? (s.length - 1 - (i + 1) + 1) = some r := by
    have harith : s.length - 1 - (i + 1) + 1 = s.length - 1 - i := by omega
    rw [harith]
    have hrw : s.reverse.get? (s.length - 1 - i) =
        s.get? (s.length - 1 - (s.length - 1 - i)) := List.get?_reverse (by omega)
    rw [hrw]
    have : s.length - 1 - (s.length - 1 - i) = i := by omega
    rw [this]
    exact hi
  have hfate := chainWalk_idx byU idxOf records (s.length - 1 - (i + 1)) F h' s.reverse p r'
    hw hrk
  have hdropcons : s.reverse.drop (s.length - 1 - (i + 1) + 1) =
      r :: s.reverse.drop (s.length - 1 - (i + 1) + 1 + 1) := by
    have hblt : s.length - 1 - (i + 1) + 1 < s.reverse.length := by omega
    rw [List.drop_eq_getElem_cons hblt]
    congr 1
    have hge : s.reverse[s.length - 1 - (i + 1) + 1]? = some r := by
      rw [← List.get?_eq_getElem?]
      exact hrk1
    exact Option.some.inj ((List.getElem?_eq_getElem hblt).symm.trans hge)
  rw [hdropcons] at hfate
  obtain ⟨c, F', _, hpar, hcne, hbyc, _, _⟩ := chainWalk_cons_inv byU idxOf records hfate
  rw [hpar, Hfaith c r hbyc]

/-- The first record of a chronological pipeline segment cannot carry its
own (truthy) parent identifier: its parent is where the walk stopped, and
the walk only stops at falsy, unresolvable, or marker identifiers. -/
theorem walk_seg_S4 (Hfaith : ∀ c r, byU c = some r → r.uuid = some c)
    {F : Nat} {h' : Option String} {s : List Record} {p : Option String}
    (hw : chainWalk byU idxOf records F h' [] = some (s.reverse, p)) :
    ∀ r0 cc, s.get? 0 = some r0 → r0.parentUuid = some cc → ¬(cc = "") →
      r0.uuid ≠ some cc := by
  intro r0 cc h0 hpar hccne hcontra
  have hL : 0 < s.length := by
    rcases List.get?_eq_some.mp h0 with ⟨h, _⟩
    exact h
  have hrk : s.reverse.get? (s.length - 1) = some r0 := by
    have hrw : s.reverse.get? (s.length - 1) =
        s.get? (s.length - 1 - (s.length - 1)) := List.get?_reverse (by omega)
    rw [hrw]
    have : s.length - 1 - (s.length - 1) = 0 := by omega
    rw [this]
    exact h0
  have hfate := chainWalk_idx byU idxOf records (s.length - 1) F h' s.reverse p r0 hw hrk
  have hdropnil : s.reverse.drop (s.length - 1 + 1) = [] := by
    have : s.length - 1 + 1 = s.reverse.length := by
      rw [List.length_reverse]
      omega
    rw [this]
    exact List.drop_length s.reverse
  rw [hdropnil] at hfate
  obtain ⟨c0, _, hu0, hb0, hm0⟩ :=
    walk_seg_S1 byU idxOf records Hfaith hw 0 r0 h0
  have hceq : c0 = cc := Option.some.inj (hu0.symm.trans hcontra)
  rcases chainWalk_nil_inv byU idxOf records hfate with ⟨hfls, _⟩ | ⟨c, hcur, hcne, hrest⟩
  · rw [hpar] at hfls
    simp [truthy, hccne] at hfls
  · rw [hpar] at hcur
    obtain rfl : cc = c := Option.some.inj hcur
    rcases hrest with ⟨hmiss, _⟩ | ⟨m, hbm, hmm, _⟩
    · rw [hceq] at hb0
      rw [hb0] at hmiss
      simp at hmiss
    · rw [hceq] at hb0
      rw [hb0] at hbm
      obtain rfl : r0 = m := Option.some.inj hbm
      rw [hm0] at hmm
      simp at hmm

end SegStructure

/-! ## Assembly helpers and concrete logs -/

/-- Inversion of `extract_all_segments`. -/
theorem extract_inv {F : Nat} {head : String} {byU : String → Option Record}
    {records : List Record} {segs : List (List Record)}
    (h : extract_all_segments F head byU records = some segs) :
    ∃ out, segLoop byU (uuidToIndex records) records F (some head) = some out ∧
      segs = out.reverse := by
  unfold extract_all_segments at h
  cases hs : segLoop byU (uuidToIndex records) records F (some head) with
  | none => rw [hs] at h; simp at h
  | some out =>
    rw [hs] at h
    simp only [Option.map_some', Option.some.injEq] at h
    exact ⟨out, rfl, h.symm⟩

/-- Reading a `Pairwise` relation off two positions. -/
theorem pairwise_get? {α : Type} {R : α → α → Prop} {l : List α} (h : l.Pairwise R) :
    ∀ {i j : Nat} {a b : α}, i < j → l.get? i = some a → l.get? j = some b → R a b := by
  intro i j a b hij ha hb
  rcases List.get?_eq_some.mp ha with ⟨hia, hga⟩
  rcases List.get?_eq_some.mp hb with ⟨hjb, hgb⟩
  have := List.pairwise_iff_get.mp h ⟨i, hia⟩ ⟨j, hjb⟩ hij
  rw [hga, hgb] at this
  exact this

/-- Short builder for concrete records (no session id, no extra payload). -/
def mkRec (u p ty sub : Option String) (ics : Bool) : Record :=
  ⟨u, p, ty, sub, ics, none, []⟩

/- The spec's 5-record compaction scenario, exactly as the claim states it:
parent chain A ← B ← C, marker with no parent, D's parent is C, E's parent
is D. -/
def cA : Record := mkRec (some "A") none (some "user") none false
def cB : Record := mkRec (some "B") (some "A") (some "assistant") none false
def cC : Record := mkRec (some "C") (some "B") (some "user") none false
def cM : Record := mkRec (some "M") none (some "system") (some "compact_boundary") false
def cD : Record := mkRec (some "D") (some "C") (some "user") none false
def cE : Record := mkRec (some "E") (some "D") (some "assistant") none false
def logC2stated : List Record := [cA, cB, cC, cM, cD, cE]

/- The same scenario with D's parent pointing at the compaction marker —
the configuration real transcripts have and the only one on which the
expected two-segment output arises. -/
def cD' : Record := mkRec (some "D") (some "M") (some "user") none false
def logC2amended : List Record := [cA, cB, cC, cM, cD', cE]

/- A one-record log whose record is its own parent: the chain walk loops
forever on it. -/
def cyc : Record := mkRec (some "X") (some "X") (some "user") none false
def logCyc : List Record := [cyc]

/- A record with a dangling parent reference. -/
def rDang : Record := mkRec (some "B") (some "X") (some "user") none false
def logDang : List Record := [rDang]

/- A marker whose physically preceding record carries no identifier. -/
def rNoU : Record := mkRec none none (some "user") none false
def rD2 : Record := mkRec (some "D") (some "M") (some "user") none false
def logC8 : List Record := [rNoU, cM, rD2]

/- A log whose most recent live record carries no identifier, while an
earlier live record does. -/
def rHeadless : Record := mkRec none none (some "user") none false
def logC10 : List Record := [cA, rHeadless]

/-! ## Claims -/

/-- C2 (counterexample): on the 5-record log exactly as the claim describes
it — A←B←C, marker with null parent, D's parent is C, E's parent is D,
head E — segmentation yields ONE segment `[A,B,C,D,E]`, not two: with D's
parent resolving to C, the walk from E never meets the marker, so no
boundary is hit. -/
theorem claim_C2_counterexample :
    find_head logC2stated = some "E" ∧
    extract_all_segments 10 "E" (fun u => byUuid u logC2stated) logC2stated =
      some [[cA, cB, cC, cD, cE]] ∧
    (extract_all_segments 10 "E" (fun u => byUuid u logC2stated) logC2stated).map
      List.length ≠ some 2 := by
  refine ⟨by decide, by decide, by decide⟩

/-- C2 (amended): with D's parent being the compaction marker — the record
that physically precedes D — the scenario behaves as the claim expects:
head E, exactly two segments `[A,B,C]` and `[D,E]`, five records across the
outputs, and the marker in no output. -/
theorem claim_C2_amended :
    find_head logC2amended = some "E" ∧
    extract_all_segments 10 "E" (fun u => byUuid u logC2amended) logC2amended =
      some [[cA, cB, cC], [cD', cE]] ∧
    ([[cA, cB, cC], [cD', cE]] : List (List Record)).flatten.length = 5 ∧
    ∀ seg ∈ ([[cA, cB, cC], [cD', cE]] : List (List Record)), cM ∉ seg := by
  refine ⟨by decide, by decide, by decide, by decide⟩

/-- The chain walk diverges on the self-parent log: no fuel suffices. -/
theorem cyc_walk_diverges : ∀ (n : Nat) (chain : List Record),
    chainWalk (fun u => byUuid u logCyc) (uuidToIndex logCyc) logCyc n (some "X") chain =
      none := by
  intro n
  induction n with
  | zero => intro chain; simp [chainWalk, truthy]
  | succ n ih =>
    intro chain
    have hb : byUuid "X" logCyc = some cyc := by decide
    have hm : is_compaction_marker cyc = false := by decide
    simp only [chainWalk, hb, hm, Bool.false_eq_true, if_false, ite_false]
    have hpar : cyc.parentUuid = some "X" := rfl
    rw [hpar]
    exact ih (chain ++ [cyc])

/-- C5 (counterexample): on the finite one-record log whose record is its
own parent, the segmentation operation never returns: for every fuel the
model reports non-termination. -/
theorem claim_C5_counterexample :
    ¬ ∃ F out, extract_all_segments F "X" (fun u => byUuid u logCyc) logCyc = some out := by
  rintro ⟨F, out, hx⟩
  obtain ⟨out', hs, _⟩ := extract_inv hx
  match F, hs with
  | 0, hs => simp [segLoop, truthy] at hs
  | F + 1, hs =>
    have ht : truthy (some "X") = true := by decide
    simp only [segLoop, ht, if_true] at hs
    rw [cyc_walk_diverges (F + 1) []] at hs
    simp at hs

/-- C5 (amended): on every finite log in which each resolvable non-empty
parent reference points to a strictly earlier physical line and no two
records share an identifier, segmentation terminates with a result, from
any starting head. -/
theorem claim_C5_amended (records : List Record) (hd : parentsDescendB records = true)
    (hun : UniqueUuids records) (head_uuid : String) :
    ∃ F out,
      extract_all_segments F head_uuid (fun u => byUuid u records) records = some out :=
  extract_total hd hun head_uuid

/-- Witness for C5 (amended) at the concrete compaction-scenario log. -/
theorem claim_C5_witness :
    ∃ F out,
      extract_all_segments F "E" (fun u => byUuid u logC2amended) logC2amended = some out :=
  claim_C5_amended logC2amended (by decide) (by decide) "E"

/-- C1: for every segment produced by the segmentation pipeline and every
caller-supplied session identifier (and fresh-identifier supply), the
rewritten segment has a null parent reference on its first record, and
every non-first record's rewritten parent reference equals the fresh
identifier of an earlier record of the same segment (namely the
immediately preceding one). -/
theorem claim_C1_rewrite_segments_self_contained
    (records : List Record) (F : Nat) (head : String) (segs : List (List Record))
    (hx : extract_all_segments F head (fun u => byUuid u records) records = some segs)
    (seg : List Record) (hseg : seg ∈ segs) (sid : String) (gen : Nat → String) :
    ∀ j r', (rewrite_uuids seg sid gen).get? j = some r' →
      (j = 0 → r'.parentUuid = none) ∧
      (∀ jj, j = jj + 1 → ∃ rk, (rewrite_uuids seg sid gen).get? jj = some rk ∧
        r'.parentUuid = rk.uuid) := by
  obtain ⟨out, hs, rfl⟩ := extract_inv hx
  have hmem : seg ∈ out := List.mem_reverse.mp hseg
  obtain ⟨i, hgi⟩ := List.mem_iff_get?.mp hmem
  obtain ⟨_, h', F1, p, _, hw, _⟩ :=
    segLoop_chains (fun u => byUuid u records) (uuidToIndex records) records F (some head)
      out hs i seg hgi
  have Hfaith : ∀ c r, (fun u => byUuid u records) c = some r → r.uuid = some c :=
    fun c r hcr => byUuid_uuid records c r hcr
  exact rewrite_parent_structure gen sid seg
    (fun i r hi => by
      obtain ⟨c, hc1, hc2, _⟩ :=
        walk_seg_S1 (fun u => byUuid u records) (uuidToIndex records) records Hfaith hw i r hi
      exact ⟨c, hc1, hc2⟩)
    (walk_seg_S2 (fun u => byUuid u records) (uuidToIndex records) records Hfaith hw)
    (walk_seg_S3 (fun u => byUuid u records) (uuidToIndex records) records Hfaith hw)
    (walk_seg_S4 (fun u => byUuid u records) (uuidToIndex records) records Hfaith hw)

/-- A concrete fresh-identifier supply for witnesses. -/
def genW : Nat → String
  | 0 => "w0"
  | 1 => "w1"
  | 2 => "w2"
  | _ => "wx"

/-- Witness for C1 on segment 0 of the compaction-scenario log. -/
theorem claim_C1_witness :
    ∃ r1 rk, (rewrite_uuids [cA, cB, cC] "s" genW).get? 1 = some r1 ∧
      (rewrite_uuids [cA, cB, cC] "s" genW).get? 0 = some rk ∧
      r1.parentUuid = rk.uuid := by
  have hx : extract_all_segments 10 "E" (fun u => byUuid u logC2amended) logC2amended =
      some [[cA, cB, cC], [cD', cE]] := by decide
  have hmem : [cA, cB, cC] ∈ [[cA, cB, cC], [cD', cE]] := by decide
  have hr1 : (rewrite_uuids [cA, cB, cC] "s" genW).get? 1 =
      some ⟨some "w1", some "w0", some "assistant", none, false, some "s", []⟩ := by decide
  have happ :=
    (claim_C1_rewrite_segments_self_contained logC2amended 10 "E" [[cA, cB, cC], [cD', cE]]
      hx [cA, cB, cC] hmem "s" genW 1
      ⟨some "w1", some "w0", some "assistant", none, false, some "s", []⟩ hr1).2 0 rfl
  obtain ⟨rk, hk, hp⟩ := happ
  exact ⟨_, rk, hr1, hk, hp⟩

/-- C3: for every input log on which extraction returns, the records of the
emitted segments, taken together, are exactly the live-chain records — the
head's ancestry via parent links, continued across each compaction boundary
via the physically preceding record — with no omission and no duplicate. -/
theorem claim_C3_completeness (records : List Record) (F : Nat) (head : String)
    (segs : List (List Record))
    (hx : extract_all_segments F head (fun u => byUuid u records) records = some segs) :
    ∃ G anc,
      liveChainRecords (fun u => byUuid u records) (uuidToIndex records) records G
        (some head) = some anc ∧
      segs.flatten = anc.reverse ∧ segs.flatten.Nodup := by
  obtain ⟨out, hs, rfl⟩ := extract_inv hx
  obtain ⟨G, hlc⟩ :=
    segLoop_liveChain (fun u => byUuid u records) (uuidToIndex records) records F (some head)
      out hs
  refine ⟨G, (out.map List.reverse).flatten, hlc, ?_, ?_⟩
  · rw [List.flatten_reverse]
  · have hnd :=
      segLoop_flatten_nodup (fun u => byUuid u records) (uuidToIndex records) records hs
    exact ((List.reverse_perm out).flatten).symm.nodup hnd

/-- Witness for C3 at the concrete compaction-scenario log. -/
theorem claim_C3_witness :
    ∃ G anc,
      liveChainRecords (fun u => byUuid u logC2amended) (uuidToIndex logC2amended)
        logC2amended G (some "E") = some anc ∧
      ([[cA, cB, cC], [cD', cE]] : List (List Record)).flatten = anc.reverse ∧
      ([[cA, cB, cC], [cD', cE]] : List (List Record)).flatten.Nodup :=
  claim_C3_completeness logC2amended 10 "E" [[cA, cB, cC], [cD', cE]] (by decide)

/-- C4: in a terminating run of the pipeline, no original record identifier
appears in more than one emitted segment. -/
theorem claim_C4_segments_disjoint (records : List Record) (F : Nat) (head : String)
    (segs : List (List Record))
    (hx : extract_all_segments F head (fun u => byUuid u records) records = some segs) :
    ∀ (i j : Nat) (ci cj : List Record) (r r' : Record) (u : String), i ≠ j →
      segs.get? i = some ci → segs.get? j = some cj → r ∈ ci → r' ∈ cj →
      r.uuid = some u → r'.uuid = some u → False := by
  obtain ⟨out, hs, rfl⟩ := extract_inv hx
  intro i j ci cj r r' u hij hgi hgj hri hrj hui huj
  have Hfaith : ∀ c rr, (fun v => byUuid v records) c = some rr → rr.uuid = some c :=
    fun c rr hcr => byUuid_uuid records c rr hcr
  have hreq : r = r' := by
    have hmemci : ci ∈ out := List.mem_reverse.mp (List.get?_mem hgi)
    have hmemcj : cj ∈ out := List.mem_reverse.mp (List.get?_mem hgj)
    obtain ⟨ii, hgici⟩ := List.mem_iff_get?.mp hmemci
    obtain ⟨_, h1, F1, p1, _, hw1, _⟩ :=
      segLoop_chains (fun v => byUuid v records) (uuidToIndex records) records F (some head)
        out hs ii ci hgici
    obtain ⟨jjx, hgjcj⟩ := List.mem_iff_get?.mp hmemcj
    obtain ⟨_, h2, F2, p2, _, hw2, _⟩ :=
      segLoop_chains (fun v => byUuid v records) (uuidToIndex records) records F (some head)
        out hs jjx cj hgjcj
    obtain ⟨ir, hgir⟩ := List.mem_iff_get?.mp hri
    obtain ⟨c1, _, huc1, hbc1, _⟩ :=
      walk_seg_S1 (fun v => byUuid v records) (uuidToIndex records) records Hfaith hw1 ir r hgir
    obtain ⟨jr, hgjr⟩ := List.mem_iff_get?.mp hrj
    obtain ⟨c2, _, huc2, hbc2, _⟩ :=
      walk_seg_S1 (fun v => byUuid v records) (uuidToIndex records) records Hfaith hw2 jr r' hgjr
    have hc1u : c1 = u := Option.some.inj (huc1.symm.trans hui)
    have hc2u : c2 = u := Option.some.inj (huc2.symm.trans huj)
    rw [hc1u] at hbc1
    rw [hc2u] at hbc2
    exact Option.some.inj (hbc1.symm.trans hbc2)
  have hpw := segLoop_disjoint (fun v => byUuid v records) (uuidToIndex records) records
    F (some head) out hs
  have hpwrev : (out.reverse).Pairwise (fun a b => List.Disjoint b a) :=
    List.pairwise_reverse.mpr hpw
  rcases hij.lt_or_lt with hlt | hlt
  · have hd := pairwise_get? hpwrev hlt hgi hgj
    exact hd (hreq ▸ hrj) hri
  · have hd := pairwise_get? hpwrev hlt hgj hgi
    exact hd (hreq ▸ hri) hrj

/-- Witness for C4: the theorem applied to the concrete two-segment run
shows segment 0 cannot contain a record carrying segment 1's identifier. -/
theorem claim_C4_witness : ¬ (cD' ∈ ([cA, cB, cC] : List Record)) := by
  intro hmem
  exact claim_C4_segments_disjoint logC2amended 10 "E" [[cA, cB, cC], [cD', cE]] (by decide)
    0 1 [cA, cB, cC] [cD', cE] cD' cD' "D" (by decide) (by decide) (by decide) hmem
    (by decide) (by decide) (by decide)

/-- C6: no compaction marker is ever included in any emitted segment. -/
theorem claim_C6_no_marker_emitted (F : Nat) (head : String)
    (byU : String → Option Record) (records : List Record) (segs : List (List Record))
    (hx : extract_all_segments F head byU records = some segs) :
    ∀ seg ∈ segs, ∀ r ∈ seg, is_compaction_marker r = false := by
  obtain ⟨out, hs, rfl⟩ := extract_inv hx
  intro seg hseg r hr
  have hmem : seg ∈ out := List.mem_reverse.mp hseg
  obtain ⟨i, hgi⟩ := List.mem_iff_get?.mp hmem
  obtain ⟨_, h', F1, p, _, hw, _⟩ :=
    segLoop_chains byU (uuidToIndex records) records F (some head) out hs i seg hgi
  have hmem' : r ∈ seg.reverse := List.mem_reverse.mpr hr
  obtain ⟨c, _, _, hm⟩ :=
    chainWalk_mem byU (uuidToIndex records) records F1 h' seg.reverse p r hw hmem'
  exact hm

/-- Witness for C6 at the concrete compaction-scenario log. -/
theorem claim_C6_witness : is_compaction_marker cA = false :=
  claim_C6_no_marker_emitted 10 "E" (fun u => byUuid u logC2amended) logC2amended
    [[cA, cB, cC], [cD', cE]] (by decide) [cA, cB, cC] (by decide) cA (by decide)

/-- C7: whenever a chain walk reaches a record `B` whose parent identifier
is truthy but unresolvable in `by_uuid`, the walk includes `B` and stops
there — `B` ends the collected chain and no `prev_chain_head` is produced —
and the remaining run emits the collected partial chain as its (single,
final) segment rather than discarding it: the stop is a segment boundary
with no compaction marker present. -/
theorem claim_C7_dangling_parent (byU : String → Option Record) (idxOf : String → Option Nat)
    (records : List Record) (F : Nat) (h : String) (ext : List Record) (p : Option String)
    (B : Record) (q : String)
    (hw : chainWalk byU idxOf records F (some h) [] = some (ext, p))
    (hB : B ∈ ext) (hpar : B.parentUuid = some q) (hq : ¬(q = ""))
    (hmiss : byU q = none) :
    p = none ∧ ext.getLast? = some B ∧
      ∀ G rest, segLoop byU idxOf records (G + 1) (some h) = some rest →
        rest = [ext.reverse] := by
  obtain ⟨i, hgi⟩ := List.mem_iff_get?.mp hB
  have hfate := chainWalk_idx byU idxOf records i F (some h) ext p B hw hgi
  rw [hpar] at hfate
  have hpe : p = none ∧ ext.drop (i + 1) = [] := by
    match F, hfate with
    | 0, hfate => simp [chainWalk, truthy, hq] at hfate
    | F' + 1, hfate =>
      have hwq : chainWalk byU idxOf records (F' + 1) (some q) [] = some ([], none) := by
        simp [chainWalk, hq, hmiss]
      rw [hwq] at hfate
      have hpair := Option.some.inj hfate
      exact ⟨(congrArg Prod.snd hpair).symm, (congrArg Prod.fst hpair).symm⟩
  have hlen : i < ext.length := by
    rcases List.get?_eq_some.mp hgi with ⟨hl, _⟩
    exact hl
  have hlast : ext.getLast? = some B := by
    have hL : ext.length ≤ i + 1 := by
      have := congrArg List.length hpe.2
      simp [List.length_drop] at this
      omega
    have hieq : i = ext.length - 1 := by omega
    rw [List.getLast?_eq_get?, ← hieq]
    exact hgi
  refine ⟨hpe.1, hlast, ?_⟩
  intro G rest hsl
  have hne : ext ≠ [] := by
    intro hcon
    rw [hcon] at hB
    simp at hB
  have ht : truthy (some h) = true := by
    match hext : ext, hne with
    | r0 :: ext', _ =>
      obtain ⟨c0, F0, _, hcur, hc0, _⟩ := chainWalk_cons_inv byU idxOf records hw
      obtain rfl : h = c0 := Option.some.inj hcur
      simpa [truthy] using hc0
  simp only [segLoop, ht, if_true] at hsl
  cases hw2 : chainWalk byU idxOf records (G + 1) (some h) [] with
  | none => rw [hw2] at hsl; simp at hsl
  | some q2 =>
    rw [hw2] at hsl
    have hq2 : q2 = (ext, p) := chainWalk_det byU idxOf records hw2 hw
    rw [hq2] at hsl
    simp only [Option.some_bind] at hsl
    have hf : segLoop byU idxOf records G (ext, p).2 = some [] := by
      have : (ext, p).2 = none := hpe.1
      rw [this]
      exact segLoop_falsy byU idxOf records rfl
    rw [hf] at hsl
    have hemp : ext.isEmpty = false := by
      cases ext with
      | nil => exact absurd rfl hne
      | cons a l => rfl
    simp only [Option.map_some', hemp, Bool.false_eq_true, if_false,
      Option.some.injEq] at hsl
    exact hsl.symm

/-- Witness for C7 on a one-record log with a dangling parent. -/
theorem claim_C7_witness : List.getLast? [rDang] = some rDang := by
  have happ := claim_C7_dangling_parent (fun u => byUuid u logDang) (uuidToIndex logDang)
    logDang 3 "B" [rDang] none rDang "X" (by decide) (by decide) rfl (by decide) (by decide)
  exact happ.2.1

/-- C8 (counterexample): when the record physically preceding the marker
carries no identifier, it does NOT become the starting point of a previous
chain: `prev_chain_head` is `None`, the loop stops, and the identifier-less
record appears in no output — only `[D]` is emitted. -/
theorem claim_C8_counterexample :
    extract_all_segments 10 "D" (fun u => byUuid u logC8) logC8 = some [[rD2]] ∧
      ∀ seg ∈ ([[rD2]] : List (List Record)), rNoU ∉ seg := by
  refine ⟨by decide, by decide⟩

/-- C8 (amended): when a chain walk stops at a compaction marker with a
positive physical index, the record immediately preceding the marker is the
one consulted by the fallback — whether or not it carries an identifier —
and its `uuid` field (possibly `None`, in which case segmentation stops
with no previous chain) is handed back as the previous chain's head. -/
theorem claim_C8_amended (records : List Record) (byU : String → Option Record) (F : Nat)
    (c u : String) (m prevRec : Record) (idx : Nat)
    (hc : ¬(c = "")) (hb : byU c = some m) (hm : is_compaction_marker m = true)
    (hu : m.uuid = some u) (hidx : uuidToIndex records u = some idx) (hpos : 0 < idx)
    (hprev : records.get? (idx - 1) = some prevRec) :
    chainWalk byU (uuidToIndex records) records (F + 1) (some c) [] =
      some ([], prevRec.uuid) := by
  have hprev' : records[idx - 1]? = some prevRec := by
    rw [← List.get?_eq_getElem?]
    exact hprev
  simp [chainWalk, hc, hb, hm, prevHeadOf, hu, hidx, hpos, hprev']

/-- Witness for C8 (amended): in `logC8` the record before the marker has
no identifier, so the walk stopping at the marker hands back `none`. -/
theorem claim_C8_witness :
    chainWalk (fun u => byUuid u logC8) (uuidToIndex logC8) logC8 1 (some "M") [] =
      some ([], none) :=
  claim_C8_amended logC8 (fun u => byUuid u logC8) 0 "M" "M" cM rNoU 1 (by decide)
    (by decide) (by decide) (by decide) (by decide) (by decide) (by decide)

/-- C9: `rewrite_uuids` preserves the record count, and each output record
agrees with its input record on every field other than the identifier, the
parent identifier and the session identifier.  (No mutation of the input is
possible in this embedding: the rewriter builds a new list of new records
and its argument is left untouched.) -/
theorem claim_C9_frame (seg : List Record) (sid : String) (gen : Nat → String) (i : Nat) :
    (rewrite_uuids seg sid gen).length = seg.length ∧
    ((rewrite_uuids seg sid gen).get? i).map payloadOf = (seg.get? i).map payloadOf := by
  refine ⟨rewrite_uuids_length seg sid gen, ?_⟩
  rw [rewrite_uuids_get?]
  cases seg.get? i <;> simp [payloadOf]

/-- C10: if the most recent live conversational record (type `user` or
`assistant`, not a compact summary) carries no `uuid` field, `find_head`
returns `None` — the scan does not continue past it — and the whole split
returns zero segments, even when earlier live records carry identifiers. -/
theorem claim_C10_headless_live_record (records : List Record) (r : Record)
    (hfind : records.reverse.find? isLiveTurn = some r) (hu : r.uuid = none)
    (fuel : Nat) (sidGen : Nat → String) (uuidGen : Nat → Nat → String) :
    find_head records = none ∧ split_log fuel records sidGen uuidGen = some [] := by
  have hh : find_head records = none := by
    simp only [find_head, hfind, hu]
  refine ⟨hh, ?_⟩
  simp [split_log, hh]

/-- Witness for C10: a log whose last record is a live turn without an
identifier, preceded by a live record that has one. -/
theorem claim_C10_witness :
    find_head logC10 = none ∧
      split_log 5 logC10 (fun _ => "s") (fun _ _ => "t") = some [] :=
  claim_C10_headless_live_record logC10 rHeadless (by decide) rfl 5 (fun _ => "s")
    (fun _ _ => "t")
